import Mathlib

/-!
Verification of the build/verification orchestrator
(`gitPullAndScriptsLauncher.py` and `tools/launchAll.py`).

The Python sources are shallowly embedded as executable Lean definitions:
strings are modelled as `List Char` in the parsing core (with `String`
wrappers at the API boundary), the filesystem as a finite association list
from absolute paths (`List String`) to nodes, and the process-level control
flow of both `main` functions as total functions over explicit "world"
records capturing the outcome of each external effect.
-/

namespace ModuleStaticAnalysis

abbrev Chars := List Char

/-- Python `str.lower()` restricted to the ASCII range, as used on the
URL netloc and scheme in `parse_github_url`. -/
def lowerL (l : Chars) : Chars := l.map Char.toLower

/-- Python `str.split(sep)` for a one-character separator: splits on every
occurrence, keeping empty pieces (`"a//b".split("/") == ["a","","b"]`). -/
def splitOnC (c : Char) : Chars → List Chars
  | [] => [[]]
  | x :: xs =>
    if x = c then [] :: splitOnC c xs
    else
      match splitOnC c xs with
      | r :: rs => (x :: r) :: rs
      | [] => [[x]]

/-- Character class of the branch/tag regex regex (digits, letters, dot, underscore, hyphen, slash) in
`check_branch`. -/
def isBranchChar (c : Char) : Bool :=
  c.isAlphanum || c = '.' || c = '_' || c = '-' || c = '/'

/-- Characters allowed in a URL scheme by CPython `urllib.parse`
(`scheme_chars = letters + digits + "+-."`). -/
def isSchemeChar (c : Char) : Bool :=
  c.isAlphanum || c = '+' || c = '-' || c = '.'

/-- CPython accepts `url[:i]` as a scheme when it is nonempty, starts with
a letter and consists of scheme characters. -/
def validSchemeName (l : Chars) : Bool :=
  match l with
  | [] => false
  | c :: _ => c.isAlpha && l.all isSchemeChar

structure UrlSplit where
  scheme : Chars
  netloc : Chars
  path : Chars
deriving DecidableEq

/-- CPython `urlsplit` first removes every ASCII tab, carriage return and
line feed character from the URL. -/
def stripUnsafe (url : Chars) : Chars :=
  url.filter (fun c => !(c == '\t' || c == '\r' || c == '\n'))

/-- CPython `urlsplit` removes the fragment (everything from the first
`#`) and, for the fields the source reads, the query (from the first
`?`). -/
def stripFragmentQuery (url : Chars) : Chars :=
  (url.takeWhile (fun c => c != '#')).takeWhile (fun c => c != '?')

/-- CPython `urlsplit` scheme extraction: when a valid scheme name
precedes the first `:`, it is removed and lowercased; otherwise there is
no scheme. Returns `(scheme, remainder)`. -/
def splitSchemeRest (s2 : Chars) : Chars × Chars :=
  if (s2.takeWhile (fun c => c != ':')).length < s2.length ∧
      validSchemeName (s2.takeWhile (fun c => c != ':')) = true then
    (lowerL (s2.takeWhile (fun c => c != ':')),
      s2.drop ((s2.takeWhile (fun c => c != ':')).length + 1))
  else ([], s2)

/-- CPython `urlsplit` netloc extraction: after a leading `//`, the netloc
runs to the next `/`; without `//` there is no netloc. Returns
`(netloc, path)`. -/
def netlocSplit (rest : Chars) : Chars × Chars :=
  match rest with
  | '/' :: '/' :: r2 =>
    (r2.takeWhile (fun c => c != '/'), r2.dropWhile (fun c => c != '/'))
  | _ => ([], rest)

/-- CPython `urlparse` parameter splitting, applied to the path that
`urlsplit` returned: when the path contains a `;`, it is cut at the first
`;` at or after its last `/` — so only a `;` in the final segment splits
(with no `/` at all, the cut is at the first `;`) — and the part after the
cut becomes the `params` field, which the source never reads. -/
def cutParams (path : Chars) : Chars :=
  if ';' ∈ path then
    if '/' ∈ path then
      if ';' ∈ (path.reverse.takeWhile (fun c => c != '/')).reverse then
        (path.reverse.dropWhile (fun c => c != '/')).reverse ++
          ((path.reverse.takeWhile (fun c => c != '/')).reverse).takeWhile
            (fun c => c != ';')
      else path
    else path.takeWhile (fun c => c != ';')
  else path

/-- Model of `urllib.parse.urlparse` restricted to the fields the source
reads (`scheme`, `netloc`, `path`). -/
def urlsplitC (url : Chars) : UrlSplit :=
  { scheme := (splitSchemeRest (stripFragmentQuery (stripUnsafe url))).1
    netloc := (netlocSplit (splitSchemeRest (stripFragmentQuery (stripUnsafe url))).2).1
    path := cutParams (netlocSplit (splitSchemeRest (stripFragmentQuery (stripUnsafe url))).2).2 }

/-- Error classes raised by `parse_github_url` / `check_branch`; all are
Python `ValueError`s, distinguished here by their message. -/
inductive PErr where
  | notGithubUrl
  | pathTooShort
  | missingBranch
  | badBranchFormat
deriving DecidableEq

/-- Model of `check_branch`: an all-whitespace (in particular empty) branch
is "Missing branch/tag in URL", anything not matching
regex (one or more of digits, letters, dot, underscore, hyphen, slash) is "Bad branch/tag format". -/
def check_branchC (branch : Chars) : Except PErr Unit :=
  if branch.all Char.isWhitespace then .error .missingBranch
  else if branch.all isBranchChar then .ok ()
  else .error .badBranchFormat

/-- Python `repo.endswith(".git")`. -/
def endsWithGit (l : Chars) : Bool := (".git".data).isSuffixOf l

/-- The f-string `f"{u.scheme}://{u.netloc}/{owner}/{repo_name}"`. -/
def mkRepoUrl (scheme netloc owner name : Chars) : Chars :=
  scheme ++ ':' :: '/' :: '/' :: (netloc ++ '/' :: (owner ++ '/' :: name))

/-- The list comprehension `[p for p in u.path.split("/") if p]`. -/
def pathParts (u : UrlSplit) : List Chars :=
  (splitOnC '/' u.path).filter (fun p => !p.isEmpty)

/-- The Python `"/".join(parts[3:])`. -/
def joinSlash (ls : List Chars) : Chars := List.intercalate ['/'] ls

/-- Core of `parse_github_url` on character lists, following the source
line by line: scheme/host check, `/owner/repo` arity check, `.git`
stripping, canonical URL reconstruction, `tree/<branch>` extraction
(for four or more path segments) and branch validation. -/
def parse_github_urlC (url : Chars) :
    Except PErr (Chars × Option Chars × Chars) :=
  let u := urlsplitC url
  if (u.scheme = "http".data ∨ u.scheme = "https".data) ∧
      lowerL u.netloc = "github.com".data then
    match pathParts u with
    | owner :: repo :: rest =>
      let repo_name := if endsWithGit repo then repo.take (repo.length - 4) else repo
      let repo_url := mkRepoUrl u.scheme u.netloc owner repo_name
      match rest with
      | t :: r1 :: rs =>
        if t = "tree".data then
          match check_branchC (joinSlash (r1 :: rs)) with
          | .ok _ => .ok (repo_url, some (joinSlash (r1 :: rs)), repo_name)
          | .error e => .error e
        else .ok (repo_url, none, repo_name)
      | _ => .ok (repo_url, none, repo_name)
    | _ => .error .pathTooShort
  else .error .notGithubUrl

/-- String-level `parse_github_url`, returning
`(repo_url, branch_or_none, repo_name)` or a `ValueError` class. -/
def parse_github_url (url : String) :
    Except PErr (String × Option String × String) :=
  match parse_github_urlC url.data with
  | .ok (ru, br, nm) => .ok (String.mk ru, br.map (fun b => String.mk b), String.mk nm)
  | .error e => .error e

/-- Control-flow trace of `clone_and_move_into_folder`: `parse_github_url`
runs first, and when it raises, `git_clone` is never invoked. -/
def gitCloneInvoked (url : String) : Bool :=
  match parse_github_url url with
  | .error _ => false
  | .ok _ => true

/-- Path segments of a URL as computed by the source
(`[p for p in urlparse(url).path.split("/") if p]`). -/
def urlPathParts (url : String) : List Chars := pathParts (urlsplitC url.data)

/-- The spec's restricted ref class: nonempty and within
class of digits, letters, dot, underscore, hyphen and slash. -/
def validRef (b : Chars) : Bool := !b.isEmpty && b.all isBranchChar

/-! ### Filesystem model

Absolute paths are lists of names; a filesystem is a finite association
list from paths to nodes. A symbolic link is a leaf node carrying its
target path; the removal helpers never traverse it (mirroring the
`os.path.islink` guards and `shutil.rmtree`'s refusal in the source's
libraries), while `shutil_moveFs` resolves one level of link when
`os.path.isdir` follows it. The read-only flag on files records
`chmod`-protection; the deletion helpers force `stat.S_IWRITE` before
removing, so removal succeeds regardless of the flag. -/

abbrev FsPath := List String

inductive Node where
  | file (readOnly : Bool)
  | dir
  | link (target : FsPath)
deriving DecidableEq

abbrev Fs := List (FsPath × Node)

/-- First entry stored at `p`, if any (the association-list lookup). -/
def lookupFs : Fs → FsPath → Option Node
  | [], _ => none
  | e :: rest, p => if e.1 = p then some e.2 else lookupFs rest p

/-- The `OSError` classes the filesystem helpers can raise:
`shutil.rmtree` retried on a plain file re-raises `NotADirectoryError`
from `os.scandir`, and `shutil.move` into a directory whose matching
entry already exists raises `shutil.Error` ("Destination path ... already
exists"). -/
inductive FsOpErr where
  | notADirectory (p : FsPath)
  | destinationExists (p : FsPath)
deriving DecidableEq

/-- `shutil.rmtree` on a real directory with the source's chmod-retrying
`onerror` hook: removes the subtree rooted at `p` (the path itself and
everything below it), read-only entries being forced removable by the
hook. -/
def rmtreeDir (fs : Fs) (p : FsPath) : Fs :=
  fs.filter (fun e => !(p.isPrefixOf e.1))

/-- Model of `force_rmtree`. A missing path is a no-op
(`if os.path.exists(path)`). On a symbolic link `shutil.rmtree` refuses
to act and reports to the `onerror` hook, whose retry of the failing
`os.path.islink` raises nothing, so the call returns with nothing
removed. On a plain file the hook's retry of `os.scandir(p)` re-raises
`NotADirectoryError` (the hook swallows only `FileNotFoundError`). On a
directory the subtree is removed. -/
def force_rmtree (fs : Fs) (p : FsPath) : Except FsOpErr Fs :=
  match lookupFs fs p with
  | none => .ok fs
  | some (Node.link _) => .ok fs
  | some (Node.file _) => .error (FsOpErr.notADirectory p)
  | some Node.dir => .ok (rmtreeDir fs p)

/-- Model of `os.chmod(p, stat.S_IWRITE)` followed by `os.remove(p)` with
`FileNotFoundError` swallowed: removes the single entry at `p` (a file or
a symlink, never traversing a link target). -/
def removeEntry (fs : Fs) (p : FsPath) : Fs :=
  fs.filter (fun e => !(e.1 == p))

/-- Model of `os.listdir(d)`: the names of the entries directly inside
`d`. -/
def childNames (fs : Fs) (d : FsPath) : List String :=
  fs.filterMap (fun e =>
    if d.isPrefixOf e.1 then
      match e.1.drop d.length with
      | [n] => some n
      | _ => none
    else none)

/-- Loop body of `clear_folder_contents`: entries that are directories
and not symlinks go through `force_rmtree` — which at a path just checked
to be a real directory always returns `ok`, so the error arm is
unreachable — everything else through chmod-and-remove. -/
def clearStep (d : FsPath) (acc : Fs) (n : String) : Fs :=
  match lookupFs acc (d ++ [n]) with
  | some Node.dir =>
    match force_rmtree acc (d ++ [n]) with
    | .ok fs' => fs'
    | .error _ => acc
  | _ => removeEntry acc (d ++ [n])

/-- The `ValueError("folder_path is not a directory: ...")` raised by
`clear_folder_contents`: the not-a-directory failure class. -/
inductive ClearErr where
  | notADirectory (p : FsPath)
deriving DecidableEq

/-- Model of `clear_folder_contents`: fails when `d` is not a directory,
otherwise removes every entry inside `d` while keeping `d` itself. -/
def clear_folder_contents (fs : Fs) (d : FsPath) : Except ClearErr Fs :=
  if lookupFs fs d = some Node.dir then
    .ok ((childNames fs d).foldl (clearStep d) fs)
  else .error (ClearErr.notADirectory d)

/-- Well-formedness of a filesystem: the parent of every stored non-root
path is stored and is a directory. -/
def WfFs (fs : Fs) : Prop :=
  ∀ e ∈ fs, e.1 ≠ [] → lookupFs fs e.1.dropLast = some Node.dir

instance (fs : Fs) : Decidable (WfFs fs) :=
  decidable_of_iff
    (∀ e ∈ fs, e.1 ≠ [] → lookupFs fs e.1.dropLast = some Node.dir) Iff.rfl

/-- Paths that survive clearing the subtrees rooted at `d ++ [n]` for the
names `n` of the cleared directory's entries. -/
def outsideSubtrees (d : FsPath) (names : List String) (q : FsPath) : Bool :=
  !(names.any fun n => (d ++ [n]).isPrefixOf q)

/-- The subtree rooted at `src`, re-rooted at `dst` (the entries a rename
creates). -/
def moveImage (fs : Fs) (src dst : FsPath) : Fs :=
  (fs.filter (fun e => src.isPrefixOf e.1)).map
    (fun e => (dst ++ e.1.drop src.length, e.2))

/-- `os.rename` on a vacant destination, lifted to trees: re-roots the
whole subtree at `src` to `dst` and vacates `src`. -/
def renameTree (fs : Fs) (src dst : FsPath) : Fs :=
  fs.filter (fun e => !(src.isPrefixOf e.1)) ++ moveImage fs src dst

/-- `os.path.basename` of a model path: its last component. -/
def basenameP (p : FsPath) : String := p.getLastD ""

/-- Model of `shutil.move(src, dst)`, following CPython: when `dst` is a
directory — `os.path.isdir` follows symlinks, so also when `dst` is a
link to a directory — the real destination is `dst/basename(src)`, which
the operating system resolves through the link, so the moved entries land
under the link's target; an already existing real destination raises
`shutil.Error`. Otherwise `os.rename(src, dst)` runs, silently replacing
a plain file or a dangling link stored at `dst`. Chains of links are not
modelled. -/
def shutil_moveFs (fs : Fs) (src dst : FsPath) : Except FsOpErr Fs :=
  match lookupFs fs dst with
  | none => .ok (renameTree fs src dst)
  | some Node.dir =>
    match lookupFs fs (dst ++ [basenameP src]) with
    | some _ => .error (FsOpErr.destinationExists (dst ++ [basenameP src]))
    | none => .ok (renameTree fs src (dst ++ [basenameP src]))
  | some (Node.link t) =>
    match lookupFs fs t with
    | some Node.dir =>
      match lookupFs fs (t ++ [basenameP src]) with
      | some _ => .error (FsOpErr.destinationExists (t ++ [basenameP src]))
      | none => .ok (renameTree fs src (t ++ [basenameP src]))
    | _ => .ok (renameTree (removeEntry fs dst) src dst)
  | some (Node.file _) => .ok (renameTree (removeEntry fs dst) src dst)

/-- The `if os.path.exists(dest_path): force_rmtree(dest_path)` step of
`clone_and_move_into_folder`. `os.path.exists` follows links; on a link
occupant `force_rmtree` leaves the filesystem unchanged whether or not
the guard fires, so the guard is modelled as presence of an entry. -/
def removeExisting (fs : Fs) (p : FsPath) : Except FsOpErr Fs :=
  match lookupFs fs p with
  | none => .ok fs
  | some _ => force_rmtree fs p

/-- Filesystem effect of `clone_and_move_into_folder` after a successful
`git_clone` has populated `tmp/<repoName>`: remove an existing occupant
of `target_folder/<repoName>`, `shutil.move` the clone there, and clean
up the `TemporaryDirectory` (a real directory) on scope exit. Returns the
new filesystem and the returned `dest_path`, or the `OSError` escaping
the function (the scratch directory is cleaned up on that path too, but
no move happens). -/
def clone_and_move_into_folderFs (fs : Fs) (tmp targetFolder : FsPath)
    (repoName : String) : Except FsOpErr (Fs × FsPath) :=
  match removeExisting fs (targetFolder ++ [repoName]) with
  | .error e => .error e
  | .ok fs1 =>
    match shutil_moveFs fs1 (tmp ++ [repoName]) (targetFolder ++ [repoName]) with
    | .error e => .error e
    | .ok fs2 => .ok (rmtreeDir fs2 tmp, targetFolder ++ [repoName])

/-- Example workspace for the materializer: the destination `ws/repo` is
occupied by a stale real directory, the scratch `tmp/repo` holds the
fresh clone. -/
def wsDirOccupied : Fs :=
  [([], Node.dir), (["ws"], Node.dir), (["ws", "repo"], Node.dir),
    (["ws", "repo", "old"], Node.file false), (["tmp"], Node.dir),
    (["tmp", "repo"], Node.dir), (["tmp", "repo", "new"], Node.file false)]

/-- Example workspace whose destination `ws/repo` is occupied by a plain
file. -/
def wsFileOccupied : Fs :=
  [([], Node.dir), (["ws"], Node.dir), (["ws", "repo"], Node.file false),
    (["tmp"], Node.dir), (["tmp", "repo"], Node.dir),
    (["tmp", "repo", "new"], Node.file false)]

/-- Example workspace whose destination `ws/repo` is a symbolic link to
the directory `elsewhere`. -/
def wsLinkOccupied : Fs :=
  [([], Node.dir), (["ws"], Node.dir),
    (["ws", "repo"], Node.link ["elsewhere"]), (["elsewhere"], Node.dir),
    (["tmp"], Node.dir), (["tmp", "repo"], Node.dir),
    (["tmp", "repo", "new"], Node.file false)]

/-! ### launchAll.py model

The health probe (`docker info` under `subprocess.run(..., check=True,
timeout=5)` inside `try/except Exception`) can succeed, exit non-zero,
raise, or time out; `docker_is_ready` collapses every non-success to
`False`. The poll loop sleeps 2 seconds between probes, so probe `k` of
the loop happens at elapsed time `2*k`. -/

inductive ProbeOutcome where
  | ok
  | nonZeroExit
  | exn
  | timedOut
deriving DecidableEq

/-- Model of `docker_is_ready`: any exception, non-zero exit or timeout of
the probe command is caught and reported as not ready. -/
def docker_is_ready (o : ProbeOutcome) : Bool :=
  match o with
  | ProbeOutcome.ok => true
  | _ => false

inductive GateResult where
  | ready (launched : Bool)
  | exeMissing
  | timedOut
deriving DecidableEq

/-- The `while time.monotonic() - start < max_wait` poll loop of
`ensure_docker_running`, with discrete elapsed time `2*k` after `k`
sleeps. -/
def pollLoop (probe : Nat → ProbeOutcome) (maxWait : Nat) (k : Nat) : GateResult :=
  if h : 2 * k < maxWait then
    if docker_is_ready (probe k) then GateResult.ready true
    else pollLoop probe maxWait (k + 1)
  else GateResult.timedOut
termination_by maxWait - 2 * k
decreasing_by omega

/-- Model of `ensure_docker_running`: quick probe; on failure check the
Docker executable exists (fatal if not), launch it detached, and poll
until ready or timeout. `ready launched` records whether the executable
was launched. -/
def ensure_docker_running (probe : Nat → ProbeOutcome) (exeExists : Bool)
    (maxWaitSeconds : Nat) : GateResult :=
  if docker_is_ready (probe 0) then GateResult.ready false
  else if exeExists then pollLoop (fun k => probe (k + 1)) maxWaitSeconds 0
  else GateResult.exeMissing

/-- Outcome of `launchAll.py`'s `main` distilled to what the claims need:
every external condition of the run. `stepExit s` is the exit status of
workflow step `s`. -/
structure LaunchWorld where
  configFound : Bool
  osMatches : Bool
  probe : Nat → ProbeOutcome
  dockerExeExists : Bool
  dockerTimeout : Nat
  steps : List String
  stepExit : String → Nat

/-- The `for step in steps: run(...)` loop under
`except subprocess.CalledProcessError: sys.exit(e.returncode)`: returns
the steps actually executed and the process exit status (0 when all
succeed, the first failing step's status otherwise). -/
def runSteps (stepExit : String → Nat) : List String → List String × Nat
  | [] => ([], 0)
  | s :: rest =>
    let c := stepExit s
    if c = 0 then
      let r := runSteps stepExit rest
      (s :: r.1, r.2)
    else ([s], c)

/-- Model of `launchAll.py`'s `main`: missing config, OS mismatch and an
empty step list each exit 1 before any step runs; a readiness-gate
failure exits 1 before any step runs; otherwise the step sequencer
decides the exit status. Returns (executed steps, exit status). -/
def launchAll_main (w : LaunchWorld) : List String × Nat :=
  if ¬ w.configFound then ([], 1)
  else if ¬ w.osMatches then ([], 1)
  else if w.steps.isEmpty then ([], 1)
  else
    match ensure_docker_running w.probe w.dockerExeExists w.dockerTimeout with
    | GateResult.ready _ => runSteps w.stepExit w.steps
    | _ => ([], 1)

/-! ### gitPullAndScriptsLauncher.py pipeline model -/

def EXIT_BAD_GITHUB_URL : Nat := 1
def EXIT_BAD_CFG : Nat := 7
def EXIT_FOLDER_PATH_MISSING : Nat := 8
def EXIT_GIT_CLONE_FAILED : Nat := 4
def EXIT_LAUNCH_SCRIPT_NOT_FOUND : Nat := 5
def EXIT_LAUNCH_SCRIPT_FAILED : Nat := 6

/-- Python truthiness of `u.strip()`: blank means empty after stripping
whitespace. -/
def pyBlank (s : String) : Bool := s.data.all Char.isWhitespace

/-- The source selection in `main`: `urls_to_clone = [github_url]` when
`github_url` is truthy (present and nonempty), else the non-blank entries
of `repo_urls`. -/
def urlsToClone (githubUrl : Option String) (repoUrls : List String) : List String :=
  match githubUrl with
  | some u => if u ≠ "" then [u] else repoUrls.filter (fun r => !(pyBlank r))
  | none => repoUrls.filter (fun r => !(pyBlank r))

/-- Exceptions `clone_and_move_into_folder` can raise: `ValueError` (from
URL parsing and validation) or `RuntimeError` (git clone failed). -/
inductive CloneErr where
  | valueErr
  | runtimeErr
deriving DecidableEq

/-- The `for u in urls_to_clone` loop: the first clone exception aborts
the run. -/
def firstCloneError (f : String → Except CloneErr Unit) :
    List String → Option CloneErr
  | [] => none
  | u :: rest =>
    match f u with
    | .error e => some e
    | .ok _ => firstCloneError f rest

/-- Outcome of every fallible operation of `gitPullAndScriptsLauncher.py`'s
`main`, in program order. -/
structure PipelineWorld where
  cfgResult : Except Unit (String × List String)
  clearBeforeOk : Bool
  githubUrl : Option String
  cloneOutcome : String → Except CloneErr Unit
  launchScriptFound : Bool
  launchOk : Bool
  clearAfterOk : Bool
  reportsDirNonEmpty : Bool
  clearReportsOk : Bool
  copyOk : Bool
  clearRecordOk : Bool

/-- Exit status of `gitPullAndScriptsLauncher.py`'s `main`, following the
source: bad config 7; clear-before failure 8; empty source list 7;
`ValueError` during clone 1; `RuntimeError` 4; launch script missing 5;
launch script failed 6; clear-after failure 8; each of the three harvest
stages (clear the report destination, copy, clear the report source)
exits 1 on failure; 0 on full success. -/
def mainExit (w : PipelineWorld) : Nat :=
  match w.cfgResult with
  | .error _ => EXIT_BAD_CFG
  | .ok (_, repoUrls) =>
    if ¬ w.clearBeforeOk then EXIT_FOLDER_PATH_MISSING
    else
      if (urlsToClone w.githubUrl repoUrls).isEmpty then EXIT_BAD_CFG
      else
        match firstCloneError w.cloneOutcome (urlsToClone w.githubUrl repoUrls) with
        | some CloneErr.valueErr => EXIT_BAD_GITHUB_URL
        | some CloneErr.runtimeErr => EXIT_GIT_CLONE_FAILED
        | none =>
          if ¬ w.launchScriptFound then EXIT_LAUNCH_SCRIPT_NOT_FOUND
          else if ¬ w.launchOk then EXIT_LAUNCH_SCRIPT_FAILED
          else if ¬ w.clearAfterOk then EXIT_FOLDER_PATH_MISSING
          else if w.reportsDirNonEmpty ∧ ¬ w.clearReportsOk then 1
          else if ¬ w.copyOk then 1
          else if ¬ w.clearRecordOk then 1
          else 0

/-! ### Helper lemmas: `List.isPrefixOf` -/

section PrefixOf

variable {α : Type} [BEq α] [LawfulBEq α]

theorem isPrefixOf_iff (l m : List α) :
    l.isPrefixOf m = true ↔ ∃ r, m = l ++ r := by
  induction l generalizing m with
  | nil => simp [List.isPrefixOf]
  | cons a as ih =>
    cases m with
    | nil =>
      simp only [List.isPrefixOf]
      constructor
      · intro h; cases h
      · rintro ⟨r, hr⟩; cases hr
    | cons b bs =>
      simp only [List.isPrefixOf, Bool.and_eq_true, beq_iff_eq, ih]
      constructor
      · rintro ⟨rfl, r, rfl⟩; exact ⟨r, rfl⟩
      · rintro ⟨r, hr⟩
        injection hr with h1 h2
        exact ⟨h1.symm, r, h2⟩

theorem isPrefixOf_append (l r : List α) : l.isPrefixOf (l ++ r) = true :=
  (isPrefixOf_iff l (l ++ r)).mpr ⟨r, rfl⟩

theorem isPrefixOf_refl (l : List α) : l.isPrefixOf l = true :=
  (isPrefixOf_iff l l).mpr ⟨[], by simp⟩

theorem isPrefixOf_trans {a b c : List α} (h1 : a.isPrefixOf b = true)
    (h2 : b.isPrefixOf c = true) : a.isPrefixOf c = true := by
  obtain ⟨r, rfl⟩ := (isPrefixOf_iff a b).mp h1
  obtain ⟨s, rfl⟩ := (isPrefixOf_iff _ _).mp h2
  exact (isPrefixOf_iff _ _).mpr ⟨r ++ s, by simp⟩

theorem length_le_of_isPrefixOf {l m : List α} (h : l.isPrefixOf m = true) :
    l.length ≤ m.length := by
  obtain ⟨r, rfl⟩ := (isPrefixOf_iff l m).mp h
  simp

theorem eq_of_append_singleton_isPrefixOf {d : List α} {n m : α}
    (h : (d ++ [n]).isPrefixOf (d ++ [m]) = true) : n = m := by
  obtain ⟨r, hr⟩ := (isPrefixOf_iff _ _).mp h
  rw [List.append_assoc] at hr
  have := List.append_cancel_left hr
  injection this with h1 _
  exact h1.symm

theorem isPrefixOf_concat_elim {a l : List α} {x : α}
    (h : a.isPrefixOf (l ++ [x]) = true) :
    a.isPrefixOf l = true ∨ a = l ++ [x] := by
  obtain ⟨r, hr⟩ := (isPrefixOf_iff _ _).mp h
  cases r using List.reverseRecOn with
  | nil => right; simpa using hr.symm
  | append_singleton r' x' _ =>
    left
    have hl : l = a ++ r' := by
      have := congrArg List.dropLast hr
      simpa [← List.append_assoc, List.dropLast_concat] using this
    exact hl ▸ isPrefixOf_append a r'

theorem take_isPrefixOf (l : List α) (k : Nat) : (l.take k).isPrefixOf l = true :=
  (isPrefixOf_iff _ _).mpr ⟨l.drop k, (List.take_append_drop k l).symm⟩

theorem isPrefixOf_total_of_common {a b l : List α}
    (ha : a.isPrefixOf l = true) (hb : b.isPrefixOf l = true) :
    a.isPrefixOf b = true ∨ b.isPrefixOf a = true := by
  obtain ⟨r, rfl⟩ := (isPrefixOf_iff a l).mp ha
  obtain ⟨s, hs⟩ := (isPrefixOf_iff b _).mp hb
  have h1 : List.take a.length (a ++ r) = a := List.take_left a r
  have h2 : List.take b.length (a ++ r) = b := by rw [hs, List.take_left]
  rcases Nat.le_total a.length b.length with hab | hab
  · left
    have h3 : b.take a.length = a := by
      rw [← h2, List.take_take, Nat.min_eq_left hab, h1]
    exact h3 ▸ take_isPrefixOf b a.length
  · right
    have h3 : a.take b.length = b := by
      rw [← h1, List.take_take, Nat.min_eq_left hab, h2]
    exact h3 ▸ take_isPrefixOf a b.length

theorem exists_cons_of_strict_isPrefixOf {d q : List α}
    (h : d.isPrefixOf q = true) (hne : q ≠ d) :
    ∃ n r, q = (d ++ [n]) ++ r := by
  obtain ⟨t, rfl⟩ := (isPrefixOf_iff d q).mp h
  cases t with
  | nil => exact absurd (by simp) hne
  | cons n r => exact ⟨n, r, by simp⟩

end PrefixOf

/-! ### Helper lemmas: `lookupFs` -/

theorem lookupFs_filterKey (fs : Fs) (g : FsPath → Bool) (p : FsPath) :
    lookupFs (fs.filter (fun e => g e.1)) p =
      if g p then lookupFs fs p else none := by
  induction fs with
  | nil => simp [lookupFs]
  | cons e rest ih =>
    by_cases hg : g e.1
    · by_cases hep : e.1 = p
      · subst hep
        simp [List.filter_cons, hg, lookupFs]
      · simp [List.filter_cons, hg, lookupFs, hep, ih]
    · by_cases hep : e.1 = p
      · subst hep
        simp only [List.filter_cons]
        rw [if_neg (by simpa using hg)]
        rw [ih]
        simp [Bool.not_eq_true] at hg
        simp [hg]
      · simp only [List.filter_cons]
        rw [if_neg (by simpa using hg)]
        rw [ih]
        simp [lookupFs, hep]

theorem lookupFs_append_some {a : Fs} (b : Fs) {p : FsPath} {v : Node}
    (h : lookupFs a p = some v) : lookupFs (a ++ b) p = some v := by
  induction a with
  | nil => cases h
  | cons e rest ih =>
    by_cases hep : e.1 = p
    · simpa [lookupFs, hep] using by simpa [lookupFs, hep] using h
    · simp only [List.cons_append, lookupFs, if_neg hep] at h ⊢
      exact ih h

theorem lookupFs_append_none {a : Fs} (b : Fs) {p : FsPath}
    (h : lookupFs a p = none) : lookupFs (a ++ b) p = lookupFs b p := by
  induction a with
  | nil => rfl
  | cons e rest ih =>
    by_cases hep : e.1 = p
    · simp [lookupFs, hep] at h
    · simp only [List.cons_append, lookupFs, if_neg hep] at h ⊢
      exact ih h

theorem lookupFs_mem {fs : Fs} {p : FsPath} {v : Node}
    (h : lookupFs fs p = some v) : (p, v) ∈ fs := by
  induction fs with
  | nil => cases h
  | cons e rest ih =>
    by_cases hep : e.1 = p
    · simp only [lookupFs, if_pos hep] at h
      obtain ⟨p', v'⟩ := e
      obtain rfl : p' = p := hep
      obtain rfl : v' = v := by injection h
      exact List.mem_cons_self _ _
    · simp only [lookupFs, if_neg hep] at h
      exact List.mem_cons_of_mem _ (ih h)

theorem lookupFs_ne_none_of_mem {fs : Fs} {p : FsPath} {v : Node}
    (h : (p, v) ∈ fs) : lookupFs fs p ≠ none := by
  induction fs with
  | nil => cases h
  | cons e rest ih =>
    rcases List.mem_cons.mp h with rfl | hmem
    · simp [lookupFs]
    · by_cases hep : e.1 = p
      · simp [lookupFs, hep]
      · simpa [lookupFs, hep] using ih hmem

/-! ### Helper lemmas: well-formed filesystems and `clear_folder_contents` -/

theorem ancestor_dir {fs : Fs} (hwf : WfFs fs) :
    ∀ s d, s ≠ [] → lookupFs fs (d ++ s) ≠ none → lookupFs fs d = some Node.dir := by
  intro s
  induction s using List.reverseRecOn with
  | nil => intro d h; exact absurd rfl h
  | append_singleton s' m ih =>
    intro d _ hq
    obtain ⟨v, hv⟩ : ∃ v, lookupFs fs (d ++ (s' ++ [m])) = some v := by
      cases h : lookupFs fs (d ++ (s' ++ [m])) with
      | none => exact absurd h hq
      | some v => exact ⟨v, rfl⟩
    have he : (d ++ (s' ++ [m]), v) ∈ fs := lookupFs_mem hv
    have hparent := hwf _ he (by simp)
    have hdl : (d ++ (s' ++ [m])).dropLast = d ++ s' := by
      rw [← List.append_assoc, List.dropLast_concat]
    rw [hdl] at hparent
    cases s' with
    | nil => simpa using hparent
    | cons a t =>
      exact ih d (by simp) (by rw [hparent]; exact fun hcon => by cases hcon)

theorem wfFs_filterKey {fs : Fs} (g : FsPath → Bool)
    (hg : ∀ q, q ≠ [] → g q = true → g q.dropLast = true) (hwf : WfFs fs) :
    WfFs (fs.filter (fun e => g e.1)) := by
  intro e he hne
  have hmem := List.mem_filter.mp he
  have hdir := hwf e hmem.1 hne
  rw [lookupFs_filterKey, if_pos (hg e.1 hne hmem.2), hdir]

/-- Paths with a strictly longer prefix cannot themselves be the prefix. -/
theorem not_isPrefixOf_self_append {α : Type} [BEq α] [LawfulBEq α]
    (d : List α) (n : α) : (d ++ [n]).isPrefixOf d = false := by
  cases h : (d ++ [n]).isPrefixOf d
  · rfl
  · have := length_le_of_isPrefixOf h
    simp at this

/-- When the node at `p` is not a directory, a well-formed filesystem has
no entries strictly below `p`, so removing the single entry at `p` removes
the whole (trivial) subtree. -/
theorem removeEntry_eq_subtree_filter {acc : Fs} {p : FsPath} (hwf : WfFs acc)
    (hnd : lookupFs acc p ≠ some Node.dir) :
    removeEntry acc p = acc.filter (fun e => !(p.isPrefixOf e.1)) := by
  unfold removeEntry
  apply List.filter_congr
  intro e he
  cases hp : p.isPrefixOf e.1
  · suffices hne : (e.1 == p) = false by rw [hne]
    rw [beq_eq_false_iff_ne]
    intro hcon
    apply absurd hp
    rw [hcon, isPrefixOf_refl]
    exact fun h => by cases h
  · by_cases heq : e.1 = p
    · simp [heq]
    · exfalso
      obtain ⟨m, r, hmr⟩ := exists_cons_of_strict_isPrefixOf hp heq
      apply hnd
      refine ancestor_dir hwf ([m] ++ r) p (by simp) ?_
      rw [List.append_assoc] at hmr
      exact hmr ▸ lookupFs_ne_none_of_mem he

/-- On a well-formed filesystem, one iteration of the clearing loop is
exactly the removal of the subtree rooted at the processed entry. -/
theorem clearStep_eq_filter {acc : Fs} (d : FsPath) (n : String)
    (hwf : WfFs acc) :
    clearStep d acc n =
      acc.filter (fun e => !((d ++ [n]).isPrefixOf e.1)) := by
  show (match lookupFs acc (d ++ [n]) with
        | some Node.dir =>
          match force_rmtree acc (d ++ [n]) with
          | .ok fs' => fs'
          | .error _ => acc
        | _ => removeEntry acc (d ++ [n])) = _
  cases hl : lookupFs acc (d ++ [n]) with
  | none => exact removeEntry_eq_subtree_filter hwf (by simp [hl])
  | some v =>
    cases v with
    | dir =>
      have hfr : force_rmtree acc (d ++ [n]) = .ok (rmtreeDir acc (d ++ [n])) := by
        unfold force_rmtree
        rw [hl]
      show (match force_rmtree acc (d ++ [n]) with
            | .ok fs' => fs'
            | .error _ => acc) = _
      rw [hfr]
      rfl
    | file ro => exact removeEntry_eq_subtree_filter hwf (by simp [hl])
    | link t => exact removeEntry_eq_subtree_filter hwf (by simp [hl])

theorem wfFs_clearStepPred {fs : Fs} (d : FsPath) (n : String) (hwf : WfFs fs) :
    WfFs (fs.filter (fun e => !((d ++ [n]).isPrefixOf e.1))) := by
  refine wfFs_filterKey (fun q => !((d ++ [n]).isPrefixOf q)) ?_ hwf
  intro q hq hkeep
  have hk : (!((d ++ [n]).isPrefixOf q)) = true := hkeep
  show (!((d ++ [n]).isPrefixOf q.dropLast)) = true
  cases hp : (d ++ [n]).isPrefixOf q.dropLast
  · rfl
  · exfalso
    obtain ⟨x, hx⟩ : ∃ x, q = q.dropLast ++ [x] := by
      cases q with
      | nil => exact absurd rfl hq
      | cons a t =>
        exact ⟨(a :: t).getLast (by simp), (List.dropLast_append_getLast (by simp)).symm⟩
    have hfull : (d ++ [n]).isPrefixOf q = true := by
      rw [hx]
      exact isPrefixOf_trans hp (isPrefixOf_append _ _)
    rw [hfull] at hk; cases hk

theorem foldl_clearStep (d : FsPath) :
    ∀ (names : List String) (acc : Fs), WfFs acc →
      names.foldl (clearStep d) acc =
        acc.filter (fun e => outsideSubtrees d names e.1) := by
  intro names
  induction names with
  | nil => intro acc _; simp [outsideSubtrees]
  | cons n rest ih =>
    intro acc hwf
    rw [List.foldl_cons, clearStep_eq_filter d n hwf,
      ih _ (wfFs_clearStepPred d n hwf), List.filter_filter]
    apply List.filter_congr
    intro e _
    cases hx : (d ++ [n]).isPrefixOf e.1 <;>
      cases hy : rest.any (fun m => (d ++ [m]).isPrefixOf e.1) <;>
        simp [outsideSubtrees, List.any_cons, hx, hy]

theorem childNames_iff {fs : Fs} {d : FsPath} {n : String} :
    n ∈ childNames fs d ↔ ∃ v, (d ++ [n], v) ∈ fs := by
  unfold childNames
  rw [List.mem_filterMap]
  constructor
  · rintro ⟨e, he, hfe⟩
    by_cases hp : d.isPrefixOf e.1 = true
    · rw [if_pos hp] at hfe
      obtain ⟨t, ht⟩ := (isPrefixOf_iff d e.1).mp hp
      rw [ht, List.drop_left] at hfe
      cases t with
      | nil => cases hfe
      | cons m r =>
        cases r with
        | nil =>
          obtain rfl : m = n := by injection hfe
          exact ⟨e.2, by rw [← ht]; exact he⟩
        | cons _ _ => cases hfe
    · rw [if_neg hp] at hfe; cases hfe
  · rintro ⟨v, hv⟩
    refine ⟨(d ++ [n], v), hv, ?_⟩
    rw [if_pos (isPrefixOf_append d [n]), List.drop_left]

/-! ### Claim C3 -/

/-- C3: for every existing directory `D` of a well-formed filesystem with
arbitrary nested contents (read-only files and symlinked subdirectories
included), `clear_folder_contents` succeeds, leaves `D` existing as a
directory with no entries below it, touches nothing outside `D` (in
particular symlinked subdirectories inside `D` are removed as link
entries while their targets outside `D` are untouched), and running it a
second time immediately afterwards returns the same filesystem (it is
idempotent). -/
theorem clear_folder_contents_resets (fs : Fs) (d : FsPath)
    (hwf : WfFs fs) (hdir : lookupFs fs d = some Node.dir) :
    ∃ fs', clear_folder_contents fs d = .ok fs' ∧
      lookupFs fs' d = some Node.dir ∧
      (∀ q, d.isPrefixOf q = true → q ≠ d → lookupFs fs' q = none) ∧
      (∀ q, d.isPrefixOf q = false → lookupFs fs' q = lookupFs fs q) ∧
      clear_folder_contents fs' d = .ok fs' := by
  have hfold := foldl_clearStep d (childNames fs d) fs hwf
  set fs' := (childNames fs d).foldl (clearStep d) fs with hfsDef
  have h2 : lookupFs fs' d = some Node.dir := by
    have hany : (childNames fs d).any (fun n => (d ++ [n]).isPrefixOf d) = false := by
      rw [List.any_eq_false]
      intro n _
      rw [not_isPrefixOf_self_append]
      exact fun h => by cases h
    rw [hfold, lookupFs_filterKey fs (outsideSubtrees d (childNames fs d)),
      if_pos (by simp [outsideSubtrees, hany])]
    exact hdir
  have h3 : ∀ q, d.isPrefixOf q = true → q ≠ d → lookupFs fs' q = none := by
    intro q hpq hne
    rw [hfold, lookupFs_filterKey fs (outsideSubtrees d (childNames fs d))]
    cases hl : lookupFs fs q with
    | none => split <;> simp [hl]
    | some v =>
      obtain ⟨n, r, hq⟩ := exists_cons_of_strict_isPrefixOf hpq hne
      have hchild : lookupFs fs (d ++ [n]) ≠ none := by
        cases r with
        | nil =>
          rw [List.append_nil] at hq
          rw [← hq, hl]
          exact fun h => by cases h
        | cons a t =>
          have : lookupFs fs ((d ++ [n]) ++ (a :: t)) ≠ none := by
            rw [← hq, hl]; exact fun h => by cases h
          rw [ancestor_dir hwf (a :: t) (d ++ [n]) (by simp) this]
          exact fun h => by cases h
      obtain ⟨w, hw⟩ : ∃ w, lookupFs fs (d ++ [n]) = some w := by
        cases h : lookupFs fs (d ++ [n]) with
        | none => exact absurd h hchild
        | some w => exact ⟨w, rfl⟩
      have hmemn : n ∈ childNames fs d := childNames_iff.mpr ⟨w, lookupFs_mem hw⟩
      have hany : (childNames fs d).any (fun m => (d ++ [m]).isPrefixOf q) = true :=
        List.any_eq_true.mpr ⟨n, hmemn, hq ▸ isPrefixOf_append (d ++ [n]) r⟩
      rw [if_neg (by simp [outsideSubtrees, hany])]
  have h4 : ∀ q, d.isPrefixOf q = false → lookupFs fs' q = lookupFs fs q := by
    intro q hpq
    have hany : (childNames fs d).any (fun n => (d ++ [n]).isPrefixOf q) = false := by
      rw [List.any_eq_false]
      intro n _
      cases hp : (d ++ [n]).isPrefixOf q
      · exact fun h => by cases h
      · have := isPrefixOf_trans (isPrefixOf_append d [n]) hp
        rw [this] at hpq; cases hpq
    rw [hfold, lookupFs_filterKey fs (outsideSubtrees d (childNames fs d)),
      if_pos (by simp [outsideSubtrees, hany])]
  have h5 : clear_folder_contents fs' d = .ok fs' := by
    have hnil : childNames fs' d = [] := by
      rw [List.eq_nil_iff_forall_not_mem]
      intro n hn
      obtain ⟨v, hv⟩ := childNames_iff.mp hn
      refine lookupFs_ne_none_of_mem hv (h3 (d ++ [n]) (isPrefixOf_append d [n]) ?_)
      simp
    unfold clear_folder_contents
    rw [if_pos h2, hnil]
    rfl
  refine ⟨fs', ?_, h2, h3, h4, h5⟩
  unfold clear_folder_contents
  rw [if_pos hdir]

/-- Witness for C3 at a concrete filesystem: workspace `w` containing a
read-only file, a nested subdirectory and a symlink to the outside
directory `out`. -/
theorem clear_folder_contents_resets_witness :
    (WfFs [([], Node.dir), (["w"], Node.dir), (["w", "f"], Node.file true),
        (["w", "sub"], Node.dir), (["w", "sub", "g"], Node.file false),
        (["w", "ln"], Node.link ["out"]), (["out"], Node.dir),
        (["out", "x"], Node.file false)] ∧
      lookupFs [([], Node.dir), (["w"], Node.dir), (["w", "f"], Node.file true),
        (["w", "sub"], Node.dir), (["w", "sub", "g"], Node.file false),
        (["w", "ln"], Node.link ["out"]), (["out"], Node.dir),
        (["out", "x"], Node.file false)] ["w"] = some Node.dir) ∧
    (∃ fs', clear_folder_contents [([], Node.dir), (["w"], Node.dir),
        (["w", "f"], Node.file true), (["w", "sub"], Node.dir),
        (["w", "sub", "g"], Node.file false), (["w", "ln"], Node.link ["out"]),
        (["out"], Node.dir), (["out", "x"], Node.file false)] ["w"] = .ok fs' ∧
      lookupFs fs' ["w"] = some Node.dir ∧
      (∀ q, (["w"] : FsPath).isPrefixOf q = true → q ≠ ["w"] → lookupFs fs' q = none) ∧
      (∀ q, (["w"] : FsPath).isPrefixOf q = false →
        lookupFs fs' q = lookupFs [([], Node.dir), (["w"], Node.dir),
          (["w", "f"], Node.file true), (["w", "sub"], Node.dir),
          (["w", "sub", "g"], Node.file false), (["w", "ln"], Node.link ["out"]),
          (["out"], Node.dir), (["out", "x"], Node.file false)] q) ∧
      clear_folder_contents fs' ["w"] = .ok fs') :=
  ⟨⟨by decide, by decide⟩,
    clear_folder_contents_resets _ ["w"] (by decide) (by decide)⟩

/-! ### Claim C9 -/

/-- C9: given a path that is not a directory (no entry, or a plain file),
`clear_folder_contents` fails with the not-a-directory error condition
(the source's `ValueError("folder_path is not a directory: ...")`). -/
theorem clear_folder_not_dir_fails (fs : Fs) (p : FsPath)
    (h : lookupFs fs p = none ∨ ∃ ro, lookupFs fs p = some (Node.file ro)) :
    clear_folder_contents fs p = .error (ClearErr.notADirectory p) := by
  unfold clear_folder_contents
  rcases h with h | ⟨ro, h⟩ <;> rw [if_neg (by simp [h])]

/-- Witness for C9: clearing the path of a plain file fails with the
not-a-directory error. -/
theorem clear_folder_not_dir_fails_witness :
    (lookupFs [(["a"], Node.file false)] ["a"] = none ∨
      ∃ ro, lookupFs [(["a"], Node.file false)] ["a"] = some (Node.file ro)) ∧
    clear_folder_contents [(["a"], Node.file false)] ["a"] =
      .error (ClearErr.notADirectory ["a"]) :=
  ⟨Or.inr ⟨false, by decide⟩,
    clear_folder_not_dir_fails _ ["a"] (Or.inr ⟨false, by decide⟩)⟩

/-! ### Helper lemmas for the materializer -/

theorem lookupFs_rmtreeDir (fs : Fs) (p q : FsPath) :
    lookupFs (rmtreeDir fs p) q =
      if p.isPrefixOf q then none else lookupFs fs q := by
  unfold rmtreeDir
  rw [lookupFs_filterKey fs (fun x => !(p.isPrefixOf x)) q]
  cases hp : p.isPrefixOf q <;> simp [hp]

theorem lookupFs_subtreeFilter (fs : Fs) (p q : FsPath) :
    lookupFs (fs.filter (fun e => p.isPrefixOf e.1)) q =
      if p.isPrefixOf q then lookupFs fs q else none := by
  rw [lookupFs_filterKey fs (fun x => p.isPrefixOf x) q]

theorem lookupFs_map_rekey (src dst : FsPath) :
    ∀ l : Fs, (∀ e ∈ l, src.isPrefixOf e.1 = true) → ∀ r,
      lookupFs (l.map (fun e => (dst ++ e.1.drop src.length, e.2))) (dst ++ r) =
        lookupFs l (src ++ r) := by
  intro l
  induction l with
  | nil => intro _ r; rfl
  | cons e rest ih =>
    intro hall r
    obtain ⟨t, ht⟩ := (isPrefixOf_iff _ _).mp (hall e (List.mem_cons_self e rest))
    rw [List.map_cons]
    by_cases htr : t = r
    · subst htr
      have hkey : dst ++ e.1.drop src.length = dst ++ t := by
        rw [ht, List.drop_left]
      show (if (dst ++ e.1.drop src.length) = dst ++ t then some e.2
          else lookupFs _ (dst ++ t)) = _
      rw [if_pos hkey]
      show _ = (if e.1 = src ++ t then some e.2 else lookupFs rest (src ++ t))
      rw [if_pos ht]
    · have hkey : ¬ (dst ++ e.1.drop src.length = dst ++ r) := by
        rw [ht, List.drop_left]
        intro hcon
        exact htr (List.append_cancel_left hcon)
      have hkey2 : ¬ (e.1 = src ++ r) := by
        rw [ht]
        intro hcon
        exact htr (List.append_cancel_left hcon)
      show (if (dst ++ e.1.drop src.length) = dst ++ r then some e.2
          else lookupFs _ (dst ++ r)) = _
      rw [if_neg hkey]
      show _ = (if e.1 = src ++ r then some e.2 else lookupFs rest (src ++ r))
      rw [if_neg hkey2]
      exact ih (fun e' he' => hall e' (List.mem_cons_of_mem _ he')) r

theorem lookupFs_map_rekey_outside (src dst q : FsPath)
    (hq : dst.isPrefixOf q = false) :
    ∀ l : Fs, lookupFs (l.map (fun e => (dst ++ e.1.drop src.length, e.2))) q = none := by
  intro l
  induction l with
  | nil => rfl
  | cons e rest ih =>
    have hne : ¬ (dst ++ e.1.drop src.length = q) := by
      intro hcon
      rw [← hcon, isPrefixOf_append] at hq
      cases hq
    show (if (dst ++ e.1.drop src.length) = q then some e.2 else lookupFs _ q) = none
    rw [if_neg hne]
    exact ih

theorem lookupFs_moveImage (fs : Fs) (src dst r : FsPath) :
    lookupFs (moveImage fs src dst) (dst ++ r) =
      lookupFs fs (src ++ r) := by
  unfold moveImage
  rw [lookupFs_map_rekey src dst _ (fun e he => (List.mem_filter.mp he).2) r,
    lookupFs_subtreeFilter, if_pos (isPrefixOf_append src r)]

theorem lookupFs_moveImage_outside (fs : Fs) (src dst q : FsPath)
    (hq : dst.isPrefixOf q = false) :
    lookupFs (moveImage fs src dst) q = none := by
  unfold moveImage
  exact lookupFs_map_rekey_outside src dst q hq _

/-- On a well-formed filesystem whose occupant at `p` is a real directory
or absent, the `exists`-guarded `force_rmtree` succeeds, and what remains
is exactly the entries outside the subtree at `p`. -/
theorem removeExisting_ok (fs : Fs) (p : FsPath) (hwf : WfFs fs)
    (hocc : lookupFs fs p = some Node.dir ∨ lookupFs fs p = none) :
    ∃ fs1, removeExisting fs p = .ok fs1 ∧
      ∀ q, lookupFs fs1 q = if p.isPrefixOf q then none else lookupFs fs q := by
  rcases hocc with hd | hn
  · refine ⟨rmtreeDir fs p, ?_, fun q => lookupFs_rmtreeDir fs p q⟩
    unfold removeExisting force_rmtree
    rw [hd]
  · refine ⟨fs, ?_, ?_⟩
    · unfold removeExisting
      rw [hn]
    · intro q
      cases hp : p.isPrefixOf q
      · rfl
      · rw [if_pos rfl]
        obtain ⟨t, rfl⟩ := (isPrefixOf_iff _ _).mp hp
        cases t with
        | nil => simpa using hn
        | cons a s =>
          cases hl : lookupFs fs (p ++ a :: s) with
          | none => rfl
          | some v =>
            have := ancestor_dir hwf (a :: s) p (by simp) (by simp [hl])
            rw [this] at hn
            cases hn

/-- A rename leaves nothing at the source subtree: the relocation is a
move, not a copy. -/
theorem renameTree_vacates_src (g : Fs) (src dst r : FsPath)
    (h1 : dst.isPrefixOf src = false) (h2 : src.isPrefixOf dst = false) :
    lookupFs (renameTree g src dst) (src ++ r) = none := by
  unfold renameTree
  have hfirst : lookupFs (g.filter (fun e => !(src.isPrefixOf e.1))) (src ++ r) = none := by
    rw [lookupFs_filterKey g (fun x => !(src.isPrefixOf x)) (src ++ r)]
    simp [isPrefixOf_append]
  rw [lookupFs_append_none _ hfirst]
  apply lookupFs_moveImage_outside
  cases hc : dst.isPrefixOf (src ++ r)
  · rfl
  · rcases isPrefixOf_total_of_common hc (isPrefixOf_append src r) with h | h
    · rw [h] at h1; cases h1
    · rw [h] at h2; cases h2

/-- `shutil.move` onto a vacant destination is exactly the rename. -/
theorem shutil_moveFs_absent (fs : Fs) (src dst : FsPath)
    (h : lookupFs fs dst = none) :
    shutil_moveFs fs src dst = .ok (renameTree fs src dst) := by
  unfold shutil_moveFs
  rw [h]

/-! ### Claim C6 -/

/-- C6 (amended): materializing a source into a workspace whose entry of
the same derived name is currently a real directory (or absent) first
removes the prior occupant entirely and then renames the scratch clone
into place: the occupant removal succeeds, the `shutil.move` is exactly
the rename of the clone onto the vacated destination — a relocation that
leaves the source subtree empty, a move and not a copy — the call returns
`ok` with path `target_folder/<name>`, the destination subtree of the
final filesystem is exactly the retrieved tree (no merged or leftover
entries from the previous occupant), everything under the scratch
directory is gone, and paths outside the destination and the scratch are
untouched. (A plain-file occupant instead aborts with
`NotADirectoryError`, and a symlink occupant is not removed at all — the
clone lands inside the link's target; see the counterexample.) -/
theorem clone_and_move_replaces (fs : Fs) (tmp targetFolder : FsPath)
    (repoName : String) (hwf : WfFs fs)
    (h1 : tmp.isPrefixOf targetFolder = false)
    (h2 : targetFolder.isPrefixOf tmp = false)
    (hocc : lookupFs fs (targetFolder ++ [repoName]) = some Node.dir ∨
      lookupFs fs (targetFolder ++ [repoName]) = none) :
    ∃ fs1 fsFin,
      removeExisting fs (targetFolder ++ [repoName]) = .ok fs1 ∧
      shutil_moveFs fs1 (tmp ++ [repoName]) (targetFolder ++ [repoName]) =
        .ok (renameTree fs1 (tmp ++ [repoName]) (targetFolder ++ [repoName])) ∧
      (∀ r, lookupFs (renameTree fs1 (tmp ++ [repoName])
        (targetFolder ++ [repoName])) ((tmp ++ [repoName]) ++ r) = none) ∧
      clone_and_move_into_folderFs fs tmp targetFolder repoName =
        .ok (fsFin, targetFolder ++ [repoName]) ∧
      (∀ r, lookupFs fsFin ((targetFolder ++ [repoName]) ++ r) =
        lookupFs fs ((tmp ++ [repoName]) ++ r)) ∧
      (∀ q, tmp.isPrefixOf q = true → lookupFs fsFin q = none) ∧
      (∀ q, (targetFolder ++ [repoName]).isPrefixOf q = false →
        tmp.isPrefixOf q = false → lookupFs fsFin q = lookupFs fs q) := by
  have htpd : tmp.isPrefixOf (targetFolder ++ [repoName]) = false := by
    cases hc : tmp.isPrefixOf (targetFolder ++ [repoName])
    · rfl
    · rcases isPrefixOf_concat_elim hc with h | h
      · rw [h] at h1; cases h1
      · rw [h, isPrefixOf_append] at h2; cases h2
  have hdpt : (targetFolder ++ [repoName]).isPrefixOf tmp = false := by
    cases hc : (targetFolder ++ [repoName]).isPrefixOf tmp
    · rfl
    · have := isPrefixOf_trans (isPrefixOf_append targetFolder [repoName]) hc
      rw [this] at h2; cases h2
  have hA : ∀ r, tmp.isPrefixOf ((targetFolder ++ [repoName]) ++ r) = false := by
    intro r
    cases hc : tmp.isPrefixOf ((targetFolder ++ [repoName]) ++ r)
    · rfl
    · rcases isPrefixOf_total_of_common hc
        (isPrefixOf_append (targetFolder ++ [repoName]) r) with h | h
      · rw [h] at htpd; cases htpd
      · rw [h] at hdpt; cases hdpt
  have hB : ∀ r, (targetFolder ++ [repoName]).isPrefixOf ((tmp ++ [repoName]) ++ r) = false := by
    intro r
    cases hc : (targetFolder ++ [repoName]).isPrefixOf ((tmp ++ [repoName]) ++ r)
    · rfl
    · have htmpc : tmp.isPrefixOf ((tmp ++ [repoName]) ++ r) = true :=
        isPrefixOf_trans (isPrefixOf_append tmp [repoName])
          (isPrefixOf_append (tmp ++ [repoName]) r)
      rcases isPrefixOf_total_of_common hc htmpc with h | h
      · rw [h] at hdpt; cases hdpt
      · rw [h] at htpd; cases htpd
  have hC : ∀ r, (tmp ++ [repoName]).isPrefixOf ((targetFolder ++ [repoName]) ++ r) = false := by
    intro r
    cases hc : (tmp ++ [repoName]).isPrefixOf ((targetFolder ++ [repoName]) ++ r)
    · rfl
    · have := isPrefixOf_trans (isPrefixOf_append tmp [repoName]) hc
      rw [hA r] at this; cases this
  have hcd : (tmp ++ [repoName]).isPrefixOf (targetFolder ++ [repoName]) = false := by
    simpa using hC []
  have hdc : (targetFolder ++ [repoName]).isPrefixOf (tmp ++ [repoName]) = false := by
    simpa using hB []
  obtain ⟨fs1, hre, hfs1⟩ := removeExisting_ok fs (targetFolder ++ [repoName]) hwf hocc
  have hdest1 : lookupFs fs1 (targetFolder ++ [repoName]) = none := by
    rw [hfs1, if_pos (isPrefixOf_refl _)]
  have hmv := shutil_moveFs_absent fs1 (tmp ++ [repoName])
    (targetFolder ++ [repoName]) hdest1
  refine ⟨fs1,
    rmtreeDir (renameTree fs1 (tmp ++ [repoName]) (targetFolder ++ [repoName])) tmp,
    hre, hmv, ?_, ?_, ?_, ?_, ?_⟩
  · intro r
    exact renameTree_vacates_src fs1 _ _ r hdc hcd
  · simp only [clone_and_move_into_folderFs, hre, hmv]
  · intro r
    rw [lookupFs_rmtreeDir, if_neg (by rw [hA r]; exact Bool.false_ne_true)]
    unfold renameTree
    have hfirst : lookupFs (fs1.filter (fun e => !((tmp ++ [repoName]).isPrefixOf e.1)))
        ((targetFolder ++ [repoName]) ++ r) = none := by
      rw [lookupFs_filterKey fs1 (fun x => !((tmp ++ [repoName]).isPrefixOf x)) _,
        if_pos (by rw [hC r]; rfl), hfs1,
        if_pos (isPrefixOf_append (targetFolder ++ [repoName]) r)]
    rw [lookupFs_append_none _ hfirst, lookupFs_moveImage, hfs1,
      if_neg (by rw [hB r]; exact Bool.false_ne_true)]
  · intro q hq
    rw [lookupFs_rmtreeDir, if_pos hq]
  · intro q hqd hqt
    rw [lookupFs_rmtreeDir, if_neg (by rw [hqt]; exact Bool.false_ne_true)]
    have hqc : (tmp ++ [repoName]).isPrefixOf q = false := by
      cases hc : (tmp ++ [repoName]).isPrefixOf q
      · rfl
      · have := isPrefixOf_trans (isPrefixOf_append tmp [repoName]) hc
        rw [this] at hqt; cases hqt
    unfold renameTree
    cases hl : lookupFs (fs1.filter (fun e => !((tmp ++ [repoName]).isPrefixOf e.1))) q with
    | some v =>
      rw [lookupFs_append_some _ hl]
      rw [lookupFs_filterKey fs1 (fun x => !((tmp ++ [repoName]).isPrefixOf x)) _,
        if_pos (by rw [hqc]; rfl), hfs1,
        if_neg (by rw [hqd]; exact Bool.false_ne_true)] at hl
      exact hl.symm
    | none =>
      rw [lookupFs_append_none _ hl, lookupFs_moveImage_outside _ _ _ q hqd]
      rw [lookupFs_filterKey fs1 (fun x => !((tmp ++ [repoName]).isPrefixOf x)) _,
        if_pos (by rw [hqc]; rfl), hfs1,
        if_neg (by rw [hqd]; exact Bool.false_ne_true)] at hl
      exact hl.symm

/-- Witness for C6 (amended) at a concrete filesystem: the workspace `ws`
already holds a real directory occupant `repo` with a stale file, the
scratch `tmp` holds the fresh clone. -/
theorem clone_and_move_replaces_witness :
    (WfFs wsDirOccupied ∧
      (["tmp"] : FsPath).isPrefixOf ["ws"] = false ∧
      (["ws"] : FsPath).isPrefixOf ["tmp"] = false ∧
      (lookupFs wsDirOccupied (["ws"] ++ ["repo"]) = some Node.dir ∨
        lookupFs wsDirOccupied (["ws"] ++ ["repo"]) = none)) ∧
    (∃ fs1 fsFin,
      removeExisting wsDirOccupied (["ws"] ++ ["repo"]) = .ok fs1 ∧
      shutil_moveFs fs1 (["tmp"] ++ ["repo"]) (["ws"] ++ ["repo"]) =
        .ok (renameTree fs1 (["tmp"] ++ ["repo"]) (["ws"] ++ ["repo"])) ∧
      (∀ r, lookupFs (renameTree fs1 (["tmp"] ++ ["repo"])
        (["ws"] ++ ["repo"])) ((["tmp"] ++ ["repo"]) ++ r) = none) ∧
      clone_and_move_into_folderFs wsDirOccupied ["tmp"] ["ws"] "repo" =
        .ok (fsFin, ["ws"] ++ ["repo"]) ∧
      (∀ r, lookupFs fsFin ((["ws"] ++ ["repo"]) ++ r) =
        lookupFs wsDirOccupied ((["tmp"] ++ ["repo"]) ++ r)) ∧
      (∀ q, (["tmp"] : FsPath).isPrefixOf q = true → lookupFs fsFin q = none) ∧
      (∀ q, ((["ws"] : FsPath) ++ ["repo"]).isPrefixOf q = false →
        (["tmp"] : FsPath).isPrefixOf q = false →
        lookupFs fsFin q = lookupFs wsDirOccupied q)) :=
  ⟨⟨by decide, by decide, by decide, Or.inl (by decide)⟩,
    clone_and_move_replaces wsDirOccupied ["tmp"] ["ws"] "repo"
      (by decide) (by decide) (by decide) (Or.inl (by decide))⟩

/-- C6 counterexample: with a plain-file prior occupant the materializer
raises `NotADirectoryError` instead of replacing it; with a symlink prior
occupant nothing is removed — the link still sits at the destination
afterwards, while the retrieved tree lands inside the link's target
(`elsewhere/repo`), merged into the previously existing directory. -/
theorem clone_and_move_occupant_counterexample :
    clone_and_move_into_folderFs wsFileOccupied ["tmp"] ["ws"] "repo" =
      .error (FsOpErr.notADirectory ["ws", "repo"]) ∧
    (clone_and_move_into_folderFs wsLinkOccupied ["tmp"] ["ws"] "repo").toOption.map
        (fun res => lookupFs res.1 ["ws", "repo"]) =
      some (some (Node.link ["elsewhere"])) ∧
    (clone_and_move_into_folderFs wsLinkOccupied ["tmp"] ["ws"] "repo").toOption.map
        (fun res => lookupFs res.1 ["elsewhere", "repo", "new"]) =
      some (some (Node.file false)) :=
  ⟨rfl, rfl, rfl⟩


/-! ### Helper lemmas for the readiness gate -/

theorem pollLoop_timeout (probe : Nat → ProbeOutcome) (m : Nat)
    (h : ∀ k, probe k ≠ ProbeOutcome.ok) :
    ∀ k, pollLoop probe m k = GateResult.timedOut := by
  have hnr : ∀ k, docker_is_ready (probe k) = false := by
    intro k
    cases hp : probe k
    · exact absurd hp (h k)
    all_goals rfl
  have key : ∀ fuel k, m - 2 * k ≤ fuel → pollLoop probe m k = GateResult.timedOut := by
    intro fuel
    induction fuel with
    | zero =>
      intro k hk
      rw [pollLoop]
      rw [dif_neg (by omega)]
    | succ n ih =>
      intro k hk
      rw [pollLoop]
      by_cases hlt : 2 * k < m
      · rw [dif_pos hlt, hnr k, if_neg (fun hcon => by cases hcon)]
        exact ih (k + 1) (by omega)
      · rw [dif_neg hlt]
  exact fun k => key (m - 2 * k) k (Nat.le_refl _)

/-! ### Claim C4 -/

/-- C4: given the ordered step list `[s1, s2, s3]` where `s1` succeeds and
`s2` exits with a non-zero status `c`, the step sequencer executes exactly
`s1` and `s2` (never `s3`) and the process exit status is exactly `c`;
and a run whose configured step list is empty exits with the fatal
configuration status 1 (having run no step) instead of succeeding as a
no-op. -/
theorem step_sequencer_fail_fast :
    (∀ (w : LaunchWorld) (s1 s2 s3 : String) (c : Nat),
      w.configFound = true → w.osMatches = true →
      w.probe 0 = ProbeOutcome.ok →
      w.steps = [s1, s2, s3] → w.stepExit s1 = 0 → w.stepExit s2 = c → c ≠ 0 →
      launchAll_main w = ([s1, s2], c)) ∧
    (∀ w : LaunchWorld, w.steps = [] → launchAll_main w = ([], 1)) := by
  constructor
  · intro w s1 s2 s3 c hcfg hos hp hsteps h1 h2 hc
    unfold launchAll_main
    rw [if_neg (by simp [hcfg]), if_neg (by simp [hos]),
      if_neg (by rw [hsteps]; simp)]
    have hgate : ensure_docker_running w.probe w.dockerExeExists w.dockerTimeout =
        GateResult.ready false := by
      unfold ensure_docker_running
      rw [hp]
      rfl
    rw [hgate, hsteps]
    show runSteps w.stepExit (s1 :: s2 :: s3 :: []) = ([s1, s2], c)
    unfold runSteps
    rw [h1, if_pos rfl]
    unfold runSteps
    rw [h2, if_neg hc]
  · intro w hsteps
    unfold launchAll_main
    by_cases hcfg : w.configFound = true
    · by_cases hos : w.osMatches = true
      · rw [if_neg (by simp [hcfg]), if_neg (by simp [hos]),
          if_pos (by rw [hsteps]; rfl)]
      · rw [if_neg (by simp [hcfg]), if_pos (by simp [hos])]
    · rw [if_pos (by simp [hcfg])]

/-- Witness for C4 at a concrete run: steps `["s1", "s2", "s3"]` where
`s2` exits 3, and an empty-step run. -/
theorem step_sequencer_fail_fast_witness :
    ((LaunchWorld.mk true true (fun _ => ProbeOutcome.ok) true 90
        ["s1", "s2", "s3"] (fun s => if s = "s2" then 3 else 0)).configFound = true ∧
      (LaunchWorld.mk true true (fun _ => ProbeOutcome.ok) true 90
        ["s1", "s2", "s3"] (fun s => if s = "s2" then 3 else 0)).probe 0 =
        ProbeOutcome.ok ∧
      (LaunchWorld.mk true true (fun _ => ProbeOutcome.ok) true 90
        ["s1", "s2", "s3"] (fun s => if s = "s2" then 3 else 0)).stepExit "s1" = 0 ∧
      (LaunchWorld.mk true true (fun _ => ProbeOutcome.ok) true 90
        ["s1", "s2", "s3"] (fun s => if s = "s2" then 3 else 0)).stepExit "s2" = 3) ∧
    launchAll_main (LaunchWorld.mk true true (fun _ => ProbeOutcome.ok) true 90
      ["s1", "s2", "s3"] (fun s => if s = "s2" then 3 else 0)) = (["s1", "s2"], 3) ∧
    launchAll_main (LaunchWorld.mk true true (fun _ => ProbeOutcome.ok) true 90
      [] (fun _ => 0)) = ([], 1) :=
  ⟨⟨rfl, rfl, by decide, by decide⟩,
    step_sequencer_fail_fast.1 _ "s1" "s2" "s3" 3 rfl rfl rfl rfl (by decide)
      (by decide) (by decide),
    step_sequencer_fail_fast.2 _ rfl⟩

/-! ### Claim C5 -/

/-- C5: the health probe treats success as the only "ready" outcome (a
non-zero exit, an exception or a timeout of the probe command is "not
ready" and never escapes, since the gate is a total function of the probe
outcomes); when the first probe succeeds the service executable is never
launched (the gate returns `ready false` immediately); and when every
probe fails, the whole pipeline exits 1 with no workflow step executed. -/
theorem readiness_gate_behaviour :
    (∀ o, docker_is_ready o = true ↔ o = ProbeOutcome.ok) ∧
    (∀ (probe : Nat → ProbeOutcome) (exeExists : Bool) (t : Nat),
      probe 0 = ProbeOutcome.ok →
      ensure_docker_running probe exeExists t = GateResult.ready false) ∧
    (∀ w : LaunchWorld, w.configFound = true → w.osMatches = true →
      w.steps ≠ [] → w.dockerExeExists = true →
      (∀ k, w.probe k ≠ ProbeOutcome.ok) →
      launchAll_main w = ([], 1)) := by
  refine ⟨?_, ?_, ?_⟩
  · intro o
    cases o <;> simp [docker_is_ready]
  · intro probe exeExists t hp
    unfold ensure_docker_running
    rw [hp]
    rfl
  · intro w hcfg hos hsteps hexe hfail
    unfold launchAll_main
    rw [if_neg (by simp [hcfg]), if_neg (by simp [hos]),
      if_neg (by simp [List.isEmpty_iff, hsteps])]
    have h0 : docker_is_ready (w.probe 0) = false := by
      cases hp : w.probe 0
      · exact absurd hp (hfail 0)
      all_goals rfl
    have hgate : ensure_docker_running w.probe w.dockerExeExists w.dockerTimeout =
        GateResult.timedOut := by
      unfold ensure_docker_running
      rw [h0, if_neg (fun hcon => by cases hcon), if_pos hexe]
      exact pollLoop_timeout _ _ (fun k => hfail (k + 1)) 0
    rw [hgate]

/-- Witness for C5: a probe that succeeds immediately never launches the
service, and a probe that always fails makes the pipeline exit 1 with no
step executed. -/
theorem readiness_gate_behaviour_witness :
    (((fun (_ : Nat) => ProbeOutcome.ok) 0 = ProbeOutcome.ok) ∧
      ensure_docker_running (fun (_ : Nat) => ProbeOutcome.ok) true 90 =
        GateResult.ready false) ∧
    ((∀ k : Nat, (fun (_ : Nat) => ProbeOutcome.nonZeroExit) k ≠ ProbeOutcome.ok) ∧
      launchAll_main (LaunchWorld.mk true true (fun _ => ProbeOutcome.nonZeroExit)
        true 4 ["s1"] (fun _ => 0)) = ([], 1)) :=
  ⟨⟨rfl, readiness_gate_behaviour.2.1 _ true 90 rfl⟩,
    ⟨fun _ h => ProbeOutcome.noConfusion h,
      readiness_gate_behaviour.2.2 _ rfl rfl (by decide) rfl
        (fun _ h => ProbeOutcome.noConfusion h)⟩⟩

/-! ### Helper lemmas: character-list splitting -/

theorem takeWhile_all_ne (a : Char) :
    ∀ l : Chars, (∀ c ∈ l, (c == a) = false) →
      l.takeWhile (fun c => c != a) = l := by
  intro l
  induction l with
  | nil => intro _; rfl
  | cons x xs ih =>
    intro h
    rw [List.takeWhile_cons]
    have hx : (x != a) = true := by
      have := h x (List.mem_cons_self x xs)
      simp [bne, this]
    rw [hx, if_pos rfl, ih (fun c hc => h c (List.mem_cons_of_mem _ hc))]

theorem takeWhile_ne_append (a : Char) (l r : Chars)
    (h : ∀ c ∈ l, (c == a) = false) :
    (l ++ a :: r).takeWhile (fun c => c != a) = l := by
  induction l with
  | nil =>
    rw [List.nil_append, List.takeWhile_cons]
    have : (a != a) = false := by simp
    rw [this]
    rfl
  | cons x xs ih =>
    rw [List.cons_append, List.takeWhile_cons]
    have hx : (x != a) = true := by
      have := h x (List.mem_cons_self x xs)
      simp [bne, this]
    rw [hx, if_pos rfl, ih (fun c hc => h c (List.mem_cons_of_mem _ hc))]

theorem dropWhile_ne_append (a : Char) (l r : Chars)
    (h : ∀ c ∈ l, (c == a) = false) :
    (l ++ a :: r).dropWhile (fun c => c != a) = a :: r := by
  induction l with
  | nil =>
    rw [List.nil_append, List.dropWhile_cons]
    have : (a != a) = false := by simp
    rw [this]
    rfl
  | cons x xs ih =>
    rw [List.cons_append, List.dropWhile_cons]
    have hx : (x != a) = true := by
      have := h x (List.mem_cons_self x xs)
      simp [bne, this]
    rw [hx, if_pos rfl, ih (fun c hc => h c (List.mem_cons_of_mem _ hc))]

theorem drop_len_succ_append (a : Char) (l r : Chars) :
    (l ++ a :: r).drop (l.length + 1) = r := by
  induction l with
  | nil => simp
  | cons x xs ih =>
    rw [List.cons_append, List.length_cons]
    rw [show xs.length + 1 + 1 = (xs.length + 1) + 1 from rfl, List.drop_succ_cons]
    exact ih

theorem splitOnC_no_sep (sep : Char) :
    ∀ l : Chars, (∀ c ∈ l, c ≠ sep) → splitOnC sep l = [l] := by
  intro l
  induction l with
  | nil => intro _; rfl
  | cons x xs ih =>
    intro h
    simp only [splitOnC]
    rw [if_neg (h x (List.mem_cons_self x xs)),
      ih (fun c hc => h c (List.mem_cons_of_mem _ hc))]

theorem splitOnC_sep_head (sep : Char) (b : Chars) :
    splitOnC sep (sep :: b) = [] :: splitOnC sep b := by
  simp only [splitOnC, if_true]

theorem splitOnC_append_sep (sep : Char) (a b : Chars)
    (h : ∀ c ∈ a, c ≠ sep) :
    splitOnC sep (a ++ sep :: b) = a :: splitOnC sep b := by
  induction a with
  | nil =>
    rw [List.nil_append]
    exact splitOnC_sep_head sep b
  | cons x xs ih =>
    rw [List.cons_append]
    simp only [splitOnC]
    rw [if_neg (h x (List.mem_cons_self x xs)),
      ih (fun c hc => h c (List.mem_cons_of_mem _ hc))]

theorem splitOnC_mem_no_sep (sep : Char) :
    ∀ (l : Chars), ∀ x ∈ splitOnC sep l, sep ∉ x := by
  intro l
  induction l with
  | nil =>
    intro x hx
    have : x = [] := by simpa [splitOnC] using hx
    simp [this]
  | cons c cs ih =>
    intro x hx
    unfold splitOnC at hx
    by_cases hc : c = sep
    · rw [if_pos hc] at hx
      rcases List.mem_cons.mp hx with rfl | hx
      · simp
      · exact ih x hx
    · rw [if_neg hc] at hx
      cases hsp : splitOnC sep cs with
      | nil =>
        simp [hsp] at hx
        subst hx
        intro hmem
        rcases List.mem_cons.mp hmem with h | h
        · exact hc h.symm
        · cases h
      | cons r rs =>
        rw [hsp] at hx
        rcases List.mem_cons.mp hx with rfl | hx
        · intro hmem
          rcases List.mem_cons.mp hmem with rfl | hmem
          · exact hc rfl
          · exact ih r (hsp ▸ List.mem_cons_self r rs) hmem
        · exact ih x (hsp ▸ List.mem_cons_of_mem r hx)

theorem splitOnC_mem_subset (sep : Char) :
    ∀ (l : Chars), ∀ x ∈ splitOnC sep l, ∀ c ∈ x, c ∈ l := by
  intro l
  induction l with
  | nil =>
    intro x hx
    have : x = [] := by simpa [splitOnC] using hx
    simp [this]
  | cons y ys ih =>
    intro x hx c hc
    unfold splitOnC at hx
    by_cases hy : y = sep
    · rw [if_pos hy] at hx
      rcases List.mem_cons.mp hx with rfl | hx
      · cases hc
      · exact List.mem_cons_of_mem _ (ih x hx c hc)
    · rw [if_neg hy] at hx
      cases hsp : splitOnC sep ys with
      | nil =>
        simp [hsp] at hx
        subst hx
        rcases List.mem_cons.mp hc with rfl | h
        · exact List.mem_cons_self c ys
        · cases h
      | cons r rs =>
        rw [hsp] at hx
        rcases List.mem_cons.mp hx with rfl | hx
        · rcases List.mem_cons.mp hc with rfl | hc
          · exact List.mem_cons_self c ys
          · exact List.mem_cons_of_mem _
              (ih r (hsp ▸ List.mem_cons_self r rs) c hc)
        · exact List.mem_cons_of_mem _
            (ih x (hsp ▸ List.mem_cons_of_mem r hx) c hc)

/-! ### Helper lemmas: `urlsplitC` -/

theorem stripUnsafe_chars (url : Chars) :
    ∀ c ∈ stripUnsafe url,
      (c == '\t') = false ∧ (c == '\r') = false ∧ (c == '\n') = false := by
  intro c hc
  unfold stripUnsafe at hc
  have h := (List.mem_filter.mp hc).2
  cases ht : (c == '\t') <;> cases hr : (c == '\r') <;> cases hnl : (c == '\n') <;>
    first
      | exact ⟨rfl, rfl, rfl⟩
      | simp [ht, hr, hnl] at h

theorem stripFragmentQuery_sublist (url : Chars) :
    (stripFragmentQuery url).Sublist url := by
  unfold stripFragmentQuery
  exact (List.takeWhile_sublist _).trans (List.takeWhile_sublist _)

theorem cutParams_subset (path : Chars) : ∀ c ∈ cutParams path, c ∈ path := by
  intro c hc
  unfold cutParams at hc
  split at hc
  · split at hc
    · split at hc
      · rcases List.mem_append.mp hc with h | h
        · have h1 : c ∈ path.reverse.dropWhile (fun c => c != '/') :=
            List.mem_reverse.mp h
          exact List.mem_reverse.mp ((List.dropWhile_sublist _).subset h1)
        · have h1 : c ∈ (path.reverse.takeWhile (fun c => c != '/')).reverse :=
            (List.takeWhile_sublist _).subset h
          have h2 : c ∈ path.reverse.takeWhile (fun c => c != '/') :=
            List.mem_reverse.mp h1
          exact List.mem_reverse.mp ((List.takeWhile_sublist _).subset h2)
      · exact hc
    · exact (List.takeWhile_sublist _).subset hc
  · exact hc

/-- When the final path segment contains no `;` (and no `/`, being a
segment), the parameter split leaves the path unchanged. -/
theorem cutParams_keep (owner nm : Chars)
    (hnos : ∀ c ∈ nm, (c == '/') = false) (hnosemi : ';' ∉ nm) :
    cutParams ('/' :: (owner ++ '/' :: nm)) = '/' :: (owner ++ '/' :: nm) := by
  have hrev : ('/' :: (owner ++ '/' :: nm)).reverse =
      nm.reverse ++ '/' :: (owner.reverse ++ ['/']) := by
    simp
  have hlast : ((('/' :: (owner ++ '/' :: nm)).reverse).takeWhile
      (fun c => c != '/')).reverse = nm := by
    rw [hrev, takeWhile_ne_append '/' nm.reverse (owner.reverse ++ ['/'])
      (fun c hc => hnos c (List.mem_reverse.mp hc)), List.reverse_reverse]
  unfold cutParams
  by_cases h1 : ';' ∈ ('/' :: (owner ++ '/' :: nm))
  · rw [if_pos h1, if_pos (List.mem_cons_self '/' (owner ++ '/' :: nm)), hlast,
      if_neg hnosemi]
  · rw [if_neg h1]

theorem netlocSplit_snd_sublist (rest : Chars) :
    (netlocSplit rest).2.Sublist rest := by
  unfold netlocSplit
  split
  · next r2 =>
    exact ((List.dropWhile_sublist _).cons '/').cons '/'
  · exact List.Sublist.refl _

theorem splitSchemeRest_snd_sublist (s2 : Chars) :
    (splitSchemeRest s2).2.Sublist s2 := by
  unfold splitSchemeRest
  split
  · exact List.drop_sublist _ _
  · exact List.Sublist.refl _

theorem stripFragmentQuery_chars (url : Chars) :
    ∀ c ∈ stripFragmentQuery url, (c == '#') = false ∧ (c == '?') = false := by
  intro c hc
  unfold stripFragmentQuery at hc
  have h1 := List.mem_takeWhile_imp hc
  have h2 := List.mem_takeWhile_imp ((List.takeWhile_sublist _).subset hc)
  constructor
  · simpa [bne] using h2
  · simpa [bne] using h1

theorem urlsplit_path_chars (url : Chars) :
    ∀ c ∈ (urlsplitC url).path, (c == '#') = false ∧ (c == '?') = false ∧
      (c == '\t') = false ∧ (c == '\r') = false ∧ (c == '\n') = false := by
  intro c hc
  have hc1 : c ∈ (netlocSplit (splitSchemeRest
      (stripFragmentQuery (stripUnsafe url))).2).2 :=
    cutParams_subset _ c hc
  have hsub : (netlocSplit (splitSchemeRest
      (stripFragmentQuery (stripUnsafe url))).2).2 ⊆
      stripFragmentQuery (stripUnsafe url) := by
    have h1 := netlocSplit_snd_sublist
      (splitSchemeRest (stripFragmentQuery (stripUnsafe url))).2
    have h2 := splitSchemeRest_snd_sublist (stripFragmentQuery (stripUnsafe url))
    exact (h1.trans h2).subset
  have hfq := stripFragmentQuery_chars (stripUnsafe url) c (hsub hc1)
  have hus := stripUnsafe_chars url c
    ((stripFragmentQuery_sublist (stripUnsafe url)).subset (hsub hc1))
  exact ⟨hfq.1, hfq.2, hus.1, hus.2.1, hus.2.2⟩

theorem netloc_chars {nl : Chars} (h : lowerL nl = "github.com".data) :
    ∀ c ∈ nl, (c == ':') = false ∧ (c == '/') = false ∧
      (c == '#') = false ∧ (c == '?') = false ∧
      (c == '\t') = false ∧ (c == '\r') = false ∧ (c == '\n') = false := by
  intro c hc
  have hmem : Char.toLower c ∈ "github.com".data := by
    rw [← h]
    exact List.mem_map_of_mem Char.toLower hc
  refine ⟨?_, ?_, ?_, ?_, ?_, ?_, ?_⟩ <;>
    · cases hq : (c == _)
      · rfl
      · have hce := eq_of_beq hq
        subst hce
        revert hmem
        decide

theorem splitSchemeRest_append (sch rest0 : Chars)
    (hno : ∀ c ∈ sch, (c == ':') = false)
    (hvalid : validSchemeName sch = true) :
    splitSchemeRest (sch ++ ':' :: rest0) = (lowerL sch, rest0) := by
  unfold splitSchemeRest
  rw [takeWhile_ne_append ':' sch rest0 hno]
  have hlen : sch.length < (sch ++ ':' :: rest0).length := by
    rw [List.length_append]
    simp
  rw [if_pos ⟨hlen, hvalid⟩, drop_len_succ_append]

theorem netlocSplit_shape (nl rest1 : Chars)
    (hno : ∀ c ∈ nl, (c == '/') = false) :
    netlocSplit ('/' :: '/' :: (nl ++ '/' :: rest1)) = (nl, '/' :: rest1) := by
  show ((nl ++ '/' :: rest1).takeWhile (fun c => c != '/'),
    (nl ++ '/' :: rest1).dropWhile (fun c => c != '/')) = (nl, '/' :: rest1)
  rw [takeWhile_ne_append '/' nl rest1 hno, dropWhile_ne_append '/' nl rest1 hno]

/-! ### Helper lemmas: `parse_github_urlC` -/

theorem lowerL_scheme {sch : Chars}
    (hsch : sch = "http".data ∨ sch = "https".data) : lowerL sch = sch := by
  rcases hsch with rfl | rfl <;> decide

theorem scheme_chars {sch : Chars}
    (hsch : sch = "http".data ∨ sch = "https".data) :
    ∀ c ∈ sch, (c == '#') = false ∧ (c == '?') = false ∧ (c == ':') = false ∧
      (c == '\t') = false ∧ (c == '\r') = false ∧ (c == '\n') = false := by
  rcases hsch with rfl | rfl <;> decide

/-- Re-parsing a reconstructed canonical repository URL: with the facts
the first parse guarantees about its pieces, the reconstructed URL parses
to itself with no ref. -/
theorem parse_mkRepoUrl (sch nl owner nm : Chars)
    (hsch : sch = "http".data ∨ sch = "https".data)
    (hnl : lowerL nl = "github.com".data)
    (ho1 : owner ≠ [])
    (ho2 : ∀ c ∈ owner, c ≠ '/' ∧ c ≠ '#' ∧ c ≠ '?' ∧
      c ≠ '\t' ∧ c ≠ '\r' ∧ c ≠ '\n')
    (hn1 : nm ≠ [])
    (hn2 : ∀ c ∈ nm, c ≠ '/' ∧ c ≠ '#' ∧ c ≠ '?' ∧
      c ≠ '\t' ∧ c ≠ '\r' ∧ c ≠ '\n')
    (hn3 : ';' ∉ nm)
    (hgit : endsWithGit nm = false) :
    parse_github_urlC (mkRepoUrl sch nl owner nm) =
      .ok (mkRepoUrl sch nl owner nm, none, nm) := by
  have hnlc := netloc_chars hnl
  have hschc := scheme_chars hsch
  have hmem : ∀ c ∈ mkRepoUrl sch nl owner nm,
      c ∈ sch ∨ c = ':' ∨ c = '/' ∨ c ∈ nl ∨ c ∈ owner ∨ c ∈ nm := by
    intro c hc
    unfold mkRepoUrl at hc
    simp only [List.mem_append, List.mem_cons] at hc
    tauto
  have hnohash : ∀ c ∈ mkRepoUrl sch nl owner nm, (c == '#') = false := by
    intro c hc
    rcases hmem c hc with h | rfl | rfl | h | h | h
    · exact (hschc c h).1
    · decide
    · decide
    · exact (hnlc c h).2.2.1
    · exact beq_eq_false_iff_ne.mpr (ho2 c h).2.1
    · exact beq_eq_false_iff_ne.mpr (hn2 c h).2.1
  have hnoq : ∀ c ∈ mkRepoUrl sch nl owner nm, (c == '?') = false := by
    intro c hc
    rcases hmem c hc with h | rfl | rfl | h | h | h
    · exact (hschc c h).2.1
    · decide
    · decide
    · exact (hnlc c h).2.2.2.1
    · exact beq_eq_false_iff_ne.mpr (ho2 c h).2.2.1
    · exact beq_eq_false_iff_ne.mpr (hn2 c h).2.2.1
  have hnounsafe : ∀ c ∈ mkRepoUrl sch nl owner nm,
      (!(c == '\t' || c == '\r' || c == '\n')) = true := by
    intro c hc
    have h3 : (c == '\t') = false ∧ (c == '\r') = false ∧ (c == '\n') = false := by
      rcases hmem c hc with h | rfl | rfl | h | h | h
      · exact ⟨(hschc c h).2.2.2.1, (hschc c h).2.2.2.2.1, (hschc c h).2.2.2.2.2⟩
      · exact ⟨by decide, by decide, by decide⟩
      · exact ⟨by decide, by decide, by decide⟩
      · exact ⟨(hnlc c h).2.2.2.2.1, (hnlc c h).2.2.2.2.2.1, (hnlc c h).2.2.2.2.2.2⟩
      · exact ⟨beq_eq_false_iff_ne.mpr (ho2 c h).2.2.2.1,
          beq_eq_false_iff_ne.mpr (ho2 c h).2.2.2.2.1,
          beq_eq_false_iff_ne.mpr (ho2 c h).2.2.2.2.2⟩
      · exact ⟨beq_eq_false_iff_ne.mpr (hn2 c h).2.2.2.1,
          beq_eq_false_iff_ne.mpr (hn2 c h).2.2.2.2.1,
          beq_eq_false_iff_ne.mpr (hn2 c h).2.2.2.2.2⟩
    rw [h3.1, h3.2.1, h3.2.2]
    rfl
  have hstrip : stripUnsafe (mkRepoUrl sch nl owner nm) =
      mkRepoUrl sch nl owner nm := by
    unfold stripUnsafe
    exact List.filter_eq_self.mpr hnounsafe
  have hfq : stripFragmentQuery (mkRepoUrl sch nl owner nm) =
      mkRepoUrl sch nl owner nm := by
    unfold stripFragmentQuery
    rw [takeWhile_all_ne '#' _ hnohash, takeWhile_all_ne '?' _ hnoq]
  have hsr : splitSchemeRest (mkRepoUrl sch nl owner nm) =
      (sch, '/' :: '/' :: (nl ++ '/' :: (owner ++ '/' :: nm))) := by
    have h := splitSchemeRest_append sch
      ('/' :: '/' :: (nl ++ '/' :: (owner ++ '/' :: nm)))
      (fun c hc => (hschc c hc).2.2.1)
      (by rcases hsch with rfl | rfl <;> decide)
    rw [lowerL_scheme hsch] at h
    exact h
  have hns : netlocSplit ('/' :: '/' :: (nl ++ '/' :: (owner ++ '/' :: nm))) =
      (nl, '/' :: (owner ++ '/' :: nm)) :=
    netlocSplit_shape nl (owner ++ '/' :: nm) (fun c hc => (hnlc c hc).2.1)
  have hcut : cutParams ('/' :: (owner ++ '/' :: nm)) =
      '/' :: (owner ++ '/' :: nm) :=
    cutParams_keep owner nm
      (fun c hc => beq_eq_false_iff_ne.mpr (hn2 c hc).1) hn3
  have husplit : urlsplitC (mkRepoUrl sch nl owner nm) =
      UrlSplit.mk sch nl ('/' :: (owner ++ '/' :: nm)) := by
    unfold urlsplitC
    rw [hstrip, hfq, hsr]
    simp only [hns, hcut]
  have hoe : owner.isEmpty = false := by
    cases owner
    · exact absurd rfl ho1
    · rfl
  have hnme : nm.isEmpty = false := by
    cases nm
    · exact absurd rfl hn1
    · rfl
  have hpp : pathParts (UrlSplit.mk sch nl ('/' :: (owner ++ '/' :: nm))) =
      [owner, nm] := by
    unfold pathParts
    show ((splitOnC '/' ('/' :: (owner ++ '/' :: nm))).filter
      (fun p => !p.isEmpty)) = _
    rw [splitOnC_sep_head, splitOnC_append_sep '/' owner nm
      (fun c hc => (ho2 c hc).1),
      splitOnC_no_sep '/' nm (fun c hc => (hn2 c hc).1)]
    simp [List.filter, hoe, hnme]
  unfold parse_github_urlC
  rw [husplit, if_pos ⟨hsch, hnl⟩, hpp]
  simp [hgit, mkRepoUrl]

/-- Inversion of a successful parse: the scheme and host checks passed,
the path split into at least owner and repository segments, the name is
the repository segment with any `.git` suffix stripped, and the returned
URL is the canonical reconstruction. -/
theorem parse_ok_inversion {url ruC nmC : Chars} {brC : Option Chars}
    (hp : parse_github_urlC url = .ok (ruC, brC, nmC)) :
    ∃ owner repo rest,
      ((urlsplitC url).scheme = "http".data ∨
        (urlsplitC url).scheme = "https".data) ∧
      lowerL (urlsplitC url).netloc = "github.com".data ∧
      pathParts (urlsplitC url) = owner :: repo :: rest ∧
      nmC = (if endsWithGit repo then repo.take (repo.length - 4) else repo) ∧
      ruC = mkRepoUrl (urlsplitC url).scheme (urlsplitC url).netloc owner nmC := by
  simp only [parse_github_urlC] at hp
  split at hp
  case isFalse => exact Except.noConfusion hp
  case isTrue hcond =>
    split at hp
    next owner repo rest heq =>
      split at hp
      next t r1 rs =>
        by_cases ht : t = "tree".data
        · rw [if_pos ht] at hp
          split at hp
          next u hcheck =>
            simp only [Except.ok.injEq, Prod.mk.injEq] at hp
            obtain ⟨h1, -, h3⟩ := hp
            exact ⟨owner, repo, t :: r1 :: rs, hcond.1, hcond.2, heq,
              h3.symm, by rw [← h1, h3]⟩
          next e hcheck => exact Except.noConfusion hp
        · rw [if_neg ht] at hp
          simp only [Except.ok.injEq, Prod.mk.injEq] at hp
          obtain ⟨h1, -, h3⟩ := hp
          exact ⟨owner, repo, t :: r1 :: rs, hcond.1, hcond.2, heq,
            h3.symm, by rw [← h1, h3]⟩
      next hno =>
        simp only [Except.ok.injEq, Prod.mk.injEq] at hp
        obtain ⟨h1, -, h3⟩ := hp
        exact ⟨owner, repo, rest, hcond.1, hcond.2, heq,
          h3.symm, by rw [← h1, h3]⟩
    next hne => exact Except.noConfusion hp

/-- Core round-trip: a successful parse whose derived name is nonempty,
does not itself end in `.git` and contains no `;` re-parses its returned
canonical URL to the same URL and name, with no ref. -/
theorem parse_github_urlC_roundtrip {url ruC nmC : Chars} {brC : Option Chars}
    (hp : parse_github_urlC url = .ok (ruC, brC, nmC))
    (hne : nmC ≠ []) (hgit : endsWithGit nmC = false)
    (hsemi : ';' ∉ nmC) :
    parse_github_urlC ruC = .ok (ruC, none, nmC) := by
  obtain ⟨owner, repo, rest, hsch, hnl, hparts, hnm, hru⟩ := parse_ok_inversion hp
  have hpathc := urlsplit_path_chars url
  have howner_mem : owner ∈ pathParts (urlsplitC url) := by
    rw [hparts]
    exact List.mem_cons_self _ _
  have hrepo_mem : repo ∈ pathParts (urlsplitC url) := by
    rw [hparts]
    exact List.mem_cons_of_mem _ (List.mem_cons_self _ _)
  have howner_split := List.mem_filter.mp howner_mem
  have hrepo_split := List.mem_filter.mp hrepo_mem
  have ho1 : owner ≠ [] := by
    intro hcon
    have := howner_split.2
    rw [hcon] at this
    cases this
  have ho_nosep := splitOnC_mem_no_sep '/' _ owner howner_split.1
  have ho_sub := splitOnC_mem_subset '/' _ owner howner_split.1
  have ho2 : ∀ c ∈ owner, c ≠ '/' ∧ c ≠ '#' ∧ c ≠ '?' ∧
      c ≠ '\t' ∧ c ≠ '\r' ∧ c ≠ '\n' := by
    intro c hc
    refine ⟨fun hcon => ho_nosep (hcon ▸ hc), ?_, ?_, ?_, ?_, ?_⟩
    · exact beq_eq_false_iff_ne.mp (hpathc c (ho_sub c hc)).1
    · exact beq_eq_false_iff_ne.mp (hpathc c (ho_sub c hc)).2.1
    · exact beq_eq_false_iff_ne.mp (hpathc c (ho_sub c hc)).2.2.1
    · exact beq_eq_false_iff_ne.mp (hpathc c (ho_sub c hc)).2.2.2.1
    · exact beq_eq_false_iff_ne.mp (hpathc c (ho_sub c hc)).2.2.2.2
  have hr_nosep := splitOnC_mem_no_sep '/' _ repo hrepo_split.1
  have hr_sub := splitOnC_mem_subset '/' _ repo hrepo_split.1
  have hnm_sub : ∀ c ∈ nmC, c ∈ repo := by
    intro c hc
    rw [hnm] at hc
    by_cases hg : endsWithGit repo = true
    · rw [if_pos hg] at hc
      exact (List.take_sublist _ _).subset hc
    · rw [if_neg hg] at hc
      exact hc
  have hn2 : ∀ c ∈ nmC, c ≠ '/' ∧ c ≠ '#' ∧ c ≠ '?' ∧
      c ≠ '\t' ∧ c ≠ '\r' ∧ c ≠ '\n' := by
    intro c hc
    have hcr := hnm_sub c hc
    refine ⟨fun hcon => hr_nosep (hcon ▸ hcr), ?_, ?_, ?_, ?_, ?_⟩
    · exact beq_eq_false_iff_ne.mp (hpathc c (hr_sub c hcr)).1
    · exact beq_eq_false_iff_ne.mp (hpathc c (hr_sub c hcr)).2.1
    · exact beq_eq_false_iff_ne.mp (hpathc c (hr_sub c hcr)).2.2.1
    · exact beq_eq_false_iff_ne.mp (hpathc c (hr_sub c hcr)).2.2.2.1
    · exact beq_eq_false_iff_ne.mp (hpathc c (hr_sub c hcr)).2.2.2.2
  rw [hru]
  exact parse_mkRepoUrl _ _ owner nmC hsch hnl ho1 ho2 hne hn2 hsemi hgit

theorem check_branch_ok_facts {b : Chars} (h : check_branchC b = .ok ()) :
    b ≠ [] ∧ b.all isBranchChar = true := by
  unfold check_branchC at h
  by_cases hw : b.all Char.isWhitespace = true
  · rw [if_pos hw] at h
    cases h
  · rw [if_neg hw] at h
    by_cases hcls : b.all isBranchChar = true
    · refine ⟨?_, hcls⟩
      intro hcon
      subst hcon
      exact hw rfl
    · rw [if_neg hcls] at h
      cases h

/-- A successful parse that reports a ref only arises from the validated
`tree` branch, so the ref satisfies `check_branch`. -/
theorem parse_some_branch_facts {url ruC nmC bC : Chars}
    (h : parse_github_urlC url = .ok (ruC, some bC, nmC)) :
    bC ≠ [] ∧ bC.all isBranchChar = true := by
  simp only [parse_github_urlC] at h
  split at h
  case isFalse => exact Except.noConfusion h
  case isTrue hcond =>
    split at h
    next owner repo rest heq =>
      split at h
      next t r1 rs =>
        by_cases ht : t = "tree".data
        · rw [if_pos ht] at h
          split at h
          next u hcheck =>
            simp only [Except.ok.injEq, Prod.mk.injEq, Option.some.injEq] at h
            obtain ⟨-, hb, -⟩ := h
            subst hb
            exact check_branch_ok_facts hcheck
          next e hcheck => exact Except.noConfusion h
        · rw [if_neg ht] at h
          simp at h
      next hno =>
        simp at h
    next hne => exact Except.noConfusion h

theorem gitCloneInvoked_of_error {url : String} {e : PErr}
    (h : parse_github_urlC url.data = .error e) : gitCloneInvoked url = false := by
  unfold gitCloneInvoked parse_github_url
  rw [h]

/-- A `tree/<ref>` URL whose joined ref violates the restricted class is
rejected by the parser. -/
theorem parse_tree_bad_branch {url : String} {owner repo r1 : Chars}
    {rs : List Chars}
    (hshape : urlPathParts url = owner :: repo :: "tree".data :: r1 :: rs)
    (hvr : validRef (joinSlash (r1 :: rs)) = false) :
    ∃ e, parse_github_urlC url.data = .error e := by
  have hshape' : pathParts (urlsplitC url.data) =
      owner :: repo :: "tree".data :: r1 :: rs := hshape
  by_cases hcond : ((urlsplitC url.data).scheme = "http".data ∨
      (urlsplitC url.data).scheme = "https".data) ∧
      lowerL (urlsplitC url.data).netloc = "github.com".data
  · have hbad : ∃ e, check_branchC (joinSlash (r1 :: rs)) = .error e := by
      unfold check_branchC
      by_cases hw : (joinSlash (r1 :: rs)).all Char.isWhitespace = true
      · rw [if_pos hw]
        exact ⟨.missingBranch, rfl⟩
      · rw [if_neg hw]
        have hnotall : (joinSlash (r1 :: rs)).all isBranchChar = false := by
          rcases Bool.and_eq_false_iff.mp hvr with hx | hx
          · exfalso
            apply hw
            have hb : (joinSlash (r1 :: rs)).isEmpty = true := by
              cases hbe : (joinSlash (r1 :: rs)).isEmpty
              · rw [hbe] at hx
                exact absurd hx (by decide)
              · rfl
            rw [List.isEmpty_iff.mp hb]
            rfl
          · exact hx
        rw [hnotall]
        refine ⟨.badBranchFormat, ?_⟩
        rw [if_neg (by decide : ¬ (false = true))]
    obtain ⟨e, he⟩ := hbad
    refine ⟨e, ?_⟩
    simp only [parse_github_urlC]
    rw [if_pos hcond]
    simp only [hshape', he, if_true]
  · refine ⟨.notGithubUrl, ?_⟩
    simp only [parse_github_urlC]
    rw [if_neg hcond]

/-! ### Claim C2 -/

/-- C2: `https://github.com/owner/repo` parses to the canonical triple
with no ref; `https://github.com/owner/repo/tree/feature/x` yields ref
`feature/x` (the segments after `tree` rejoined with `/`); and a trailing
`.git` suffix on the repository segment is stripped to obtain the name. -/
theorem parse_github_url_examples :
    parse_github_url "https://github.com/owner/repo" =
      .ok ("https://github.com/owner/repo", none, "repo") ∧
    parse_github_url "https://github.com/owner/repo/tree/feature/x" =
      .ok ("https://github.com/owner/repo", some "feature/x", "repo") ∧
    parse_github_url "https://github.com/owner/repo.git" =
      .ok ("https://github.com/owner/repo", none, "repo") :=
  ⟨rfl, rfl, rfl⟩

/-! ### Claim C8 -/

/-- C8 counterexample: an empty-string `source_url` argument is present on
the command line, yet the configured `repo_urls` list is used instead of
it (Python truthiness of `if github_url:`), so a present `source_url`
does not always override the configured list. -/
theorem urlsToClone_empty_url_counterexample :
    urlsToClone (some "") ["https://github.com/a/b"] ≠ [""] ∧
    urlsToClone (some "") ["https://github.com/a/b"] = ["https://github.com/a/b"] :=
  ⟨by decide, by decide⟩

/-- C8 (amended): a nonempty `source_url` overrides the configured list
entirely (the selection is exactly that one source); with no `source_url`
— or an empty-string one — the non-blank configured entries are processed
in their configured order (the selection is a sublist of `repo_urls`
containing precisely its non-blank members). -/
theorem urlsToClone_selection :
    (∀ (u : String) (rs : List String), u ≠ "" → urlsToClone (some u) rs = [u]) ∧
    (∀ (g : Option String) (rs : List String), g = none ∨ g = some "" →
      (urlsToClone g rs).Sublist rs ∧
      ∀ r, r ∈ urlsToClone g rs ↔ r ∈ rs ∧ pyBlank r = false) := by
  constructor
  · intro u rs hu
    show (if u ≠ "" then [u] else rs.filter (fun r => !(pyBlank r))) = [u]
    rw [if_pos hu]
  · rintro g rs (rfl | rfl)
    · refine ⟨List.filter_sublist rs, fun r => ?_⟩
      show r ∈ rs.filter (fun x => !(pyBlank x)) ↔ _
      rw [List.mem_filter, Bool.not_eq_true']
    · refine ⟨List.filter_sublist rs, fun r => ?_⟩
      show r ∈ rs.filter (fun x => !(pyBlank x)) ↔ _
      rw [List.mem_filter, Bool.not_eq_true']

/-- Witness for C8 (amended): a nonempty URL overrides a configured list;
an empty-string URL falls back to the non-blank configured entries. -/
theorem urlsToClone_selection_witness :
    (("https://github.com/a/b" : String) ≠ "" ∧
      urlsToClone (some "https://github.com/a/b") ["x"] = ["https://github.com/a/b"]) ∧
    ((some "" = (none : Option String) ∨ some "" = some "") ∧
      (urlsToClone (some "") [" ", "u1"]).Sublist [" ", "u1"] ∧
      (∀ r, r ∈ urlsToClone (some "") [" ", "u1"] ↔
        r ∈ [" ", "u1"] ∧ pyBlank r = false)) :=
  ⟨⟨by decide, urlsToClone_selection.1 "https://github.com/a/b" ["x"] (by decide)⟩,
    ⟨Or.inr rfl, urlsToClone_selection.2 (some "") [" ", "u1"] (Or.inr rfl)⟩⟩

/-! ### Claim C1 -/

/-- C1 counterexample: a failing harvest stage (clearing the non-empty
report destination) terminates with exit status 1, which is exactly the
bad-source-URL status `EXIT_BAD_GITHUB_URL`, so the failure classes of
the pipeline do not all carry distinct exit statuses. -/
theorem mainExit_harvest_collides_with_bad_url :
    mainExit (PipelineWorld.mk (.ok ("ws", [])) true (some "u")
        (fun _ => .error CloneErr.valueErr) true true true false true true true) =
      EXIT_BAD_GITHUB_URL ∧
    mainExit (PipelineWorld.mk (.ok ("ws", [])) true (some "u")
        (fun _ => .ok ()) true true true true false true true) =
      EXIT_BAD_GITHUB_URL :=
  ⟨by decide, by decide⟩

/-- C1 (amended): the six named failure classes carry pairwise distinct
small positive statuses (bad source URL 1, bad configuration 7, workspace
clear failure 8, retrieval failure 4, external driver not found 5,
external driver failed 6) and status 0 implies every pipeline stage
succeeded; but each of the three harvest stages (clear the report
destination, copy, clear the report source) exits with status 1 on
failure, colliding with the bad-source-URL status. -/
theorem mainExit_classes :
    (([EXIT_BAD_GITHUB_URL, EXIT_BAD_CFG, EXIT_FOLDER_PATH_MISSING,
        EXIT_GIT_CLONE_FAILED, EXIT_LAUNCH_SCRIPT_NOT_FOUND,
        EXIT_LAUNCH_SCRIPT_FAILED] : List Nat).Nodup ∧
      (∀ e ∈ ([EXIT_BAD_GITHUB_URL, EXIT_BAD_CFG, EXIT_FOLDER_PATH_MISSING,
        EXIT_GIT_CLONE_FAILED, EXIT_LAUNCH_SCRIPT_NOT_FOUND,
        EXIT_LAUNCH_SCRIPT_FAILED] : List Nat), 0 < e) ∧
      mainExit (PipelineWorld.mk (.ok ("ws", ["https://github.com/a/b"])) true none
        (fun _ => .ok ()) true true true false true true true) = 0 ∧
      mainExit (PipelineWorld.mk (.error ()) true none
        (fun _ => .ok ()) true true true false true true true) = EXIT_BAD_CFG ∧
      mainExit (PipelineWorld.mk (.ok ("ws", ["u"])) false none
        (fun _ => .ok ()) true true true false true true true) =
        EXIT_FOLDER_PATH_MISSING ∧
      mainExit (PipelineWorld.mk (.ok ("ws", ["u"])) true none
        (fun _ => .error CloneErr.valueErr) true true true false true true true) =
        EXIT_BAD_GITHUB_URL ∧
      mainExit (PipelineWorld.mk (.ok ("ws", ["u"])) true none
        (fun _ => .error CloneErr.runtimeErr) true true true false true true true) =
        EXIT_GIT_CLONE_FAILED ∧
      mainExit (PipelineWorld.mk (.ok ("ws", ["u"])) true none
        (fun _ => .ok ()) false true true false true true true) =
        EXIT_LAUNCH_SCRIPT_NOT_FOUND ∧
      mainExit (PipelineWorld.mk (.ok ("ws", ["u"])) true none
        (fun _ => .ok ()) true false true false true true true) =
        EXIT_LAUNCH_SCRIPT_FAILED ∧
      mainExit (PipelineWorld.mk (.ok ("ws", ["u"])) true none
        (fun _ => .ok ()) true true false false true true true) =
        EXIT_FOLDER_PATH_MISSING ∧
      mainExit (PipelineWorld.mk (.ok ("ws", ["u"])) true none
        (fun _ => .ok ()) true true true true false true true) = 1 ∧
      mainExit (PipelineWorld.mk (.ok ("ws", ["u"])) true none
        (fun _ => .ok ()) true true true false true false true) = 1 ∧
      mainExit (PipelineWorld.mk (.ok ("ws", ["u"])) true none
        (fun _ => .ok ()) true true true false true true false) = 1) ∧
    (∀ w : PipelineWorld, mainExit w = 0 →
      w.clearBeforeOk = true ∧ w.launchScriptFound = true ∧ w.launchOk = true ∧
      w.clearAfterOk = true ∧
      (w.reportsDirNonEmpty = true → w.clearReportsOk = true) ∧
      w.copyOk = true ∧ w.clearRecordOk = true) := by
  constructor
  · exact ⟨by decide, by decide, by decide, by decide, by decide, by decide,
      by decide, by decide, by decide, by decide, by decide, by decide, by decide⟩
  · intro w h0
    unfold mainExit at h0
    split at h0
    · exact absurd h0 (by decide)
    next fp rs heq =>
      split at h0
      · exact absurd h0 (by decide)
      next hcb =>
        split at h0
        · exact absurd h0 (by decide)
        next hurls =>
          split at h0
          · exact absurd h0 (by decide)
          · exact absurd h0 (by decide)
          next hclone =>
            split at h0
            · exact absurd h0 (by decide)
            next hlf =>
              split at h0
              · exact absurd h0 (by decide)
              next hlo =>
                split at h0
                · exact absurd h0 (by decide)
                next hca =>
                  split at h0
                  · exact absurd h0 (by decide)
                  next hhc =>
                    split at h0
                    · exact absurd h0 (by decide)
                    next hcp =>
                      split at h0
                      · exact absurd h0 (by decide)
                      next hcr =>
                        refine ⟨not_not.mp hcb, not_not.mp hlf, not_not.mp hlo,
                          not_not.mp hca, ?_, not_not.mp hcp, not_not.mp hcr⟩
                        intro hrep
                        by_contra hcrr
                        exact hhc ⟨hrep, hcrr⟩

/-- Witness for C1 (amended) at the fully successful world: exit status 0
and every stage succeeded. -/
theorem mainExit_classes_witness :
    mainExit (PipelineWorld.mk (.ok ("ws", ["https://github.com/a/b"])) true none
      (fun _ => .ok ()) true true true false true true true) = 0 ∧
    ((PipelineWorld.mk (.ok ("ws", ["https://github.com/a/b"])) true none
        (fun _ => .ok ()) true true true false true true true :
          PipelineWorld).clearBeforeOk = true ∧
      (PipelineWorld.mk (.ok ("ws", ["https://github.com/a/b"])) true none
        (fun _ => .ok ()) true true true false true true true :
          PipelineWorld).launchScriptFound = true ∧
      (PipelineWorld.mk (.ok ("ws", ["https://github.com/a/b"])) true none
        (fun _ => .ok ()) true true true false true true true :
          PipelineWorld).launchOk = true ∧
      (PipelineWorld.mk (.ok ("ws", ["https://github.com/a/b"])) true none
        (fun _ => .ok ()) true true true false true true true :
          PipelineWorld).clearAfterOk = true ∧
      ((PipelineWorld.mk (.ok ("ws", ["https://github.com/a/b"])) true none
        (fun _ => .ok ()) true true true false true true true :
          PipelineWorld).reportsDirNonEmpty = true →
        (PipelineWorld.mk (.ok ("ws", ["https://github.com/a/b"])) true none
          (fun _ => .ok ()) true true true false true true true :
            PipelineWorld).clearReportsOk = true) ∧
      (PipelineWorld.mk (.ok ("ws", ["https://github.com/a/b"])) true none
        (fun _ => .ok ()) true true true false true true true :
          PipelineWorld).copyOk = true ∧
      (PipelineWorld.mk (.ok ("ws", ["https://github.com/a/b"])) true none
        (fun _ => .ok ()) true true true false true true true :
          PipelineWorld).clearRecordOk = true) :=
  ⟨by decide, mainExit_classes.2 _ (by decide)⟩

/-! ### Claim C7 -/

/-- C7: a ref, when a successful parse reports one, is always nonempty
and drawn from the restricted character class (digits, letters, dot,
underscore, hyphen, slash); and for every URL whose path segments have
the shape `owner / repo / tree / <ref segments>`, a joined ref violating
that class makes URL parsing fail with a validation error before any
retrieval is attempted (`git_clone` is never invoked). -/
theorem ref_validation :
    (∀ (url ru nm br : String),
      parse_github_url url = .ok (ru, some br, nm) →
      br.data ≠ [] ∧ br.data.all isBranchChar = true) ∧
    (∀ (url : String) (owner repo r1 : Chars) (rs : List Chars),
      urlPathParts url = owner :: repo :: "tree".data :: r1 :: rs →
      validRef (joinSlash (r1 :: rs)) = false →
      (∃ e, parse_github_urlC url.data = .error e) ∧
        gitCloneInvoked url = false) := by
  constructor
  · intro url ru nm br h
    unfold parse_github_url at h
    cases hc : parse_github_urlC url.data with
    | error e =>
      rw [hc] at h
      exact Except.noConfusion h
    | ok v =>
      obtain ⟨ruC, brC, nmC⟩ := v
      rw [hc] at h
      simp only [Except.ok.injEq, Prod.mk.injEq] at h
      obtain ⟨-, hb, -⟩ := h
      cases brC with
      | none => cases hb
      | some bC =>
        injection (show some (String.mk bC) = some br from hb) with hb2
        subst hb2
        exact parse_some_branch_facts hc
  · intro url owner repo r1 rs hshape hvr
    obtain ⟨e, he⟩ := parse_tree_bad_branch hshape hvr
    exact ⟨⟨e, he⟩, gitCloneInvoked_of_error he⟩

/-- Witness for C7: the accepted ref `feature/x` is nonempty and within
the class; the malformed ref `b@d` is rejected before retrieval. -/
theorem ref_validation_witness :
    (parse_github_url "https://github.com/owner/repo/tree/feature/x" =
        .ok ("https://github.com/owner/repo", some "feature/x", "repo") ∧
      ("feature/x" : String).data ≠ [] ∧
      ("feature/x" : String).data.all isBranchChar = true) ∧
    (urlPathParts "https://github.com/o/r/tree/b@d" =
        ["o".data, "r".data, "tree".data, "b@d".data] ∧
      validRef (joinSlash ["b@d".data]) = false ∧
      ((∃ e, parse_github_urlC ("https://github.com/o/r/tree/b@d" : String).data =
          .error e) ∧
        gitCloneInvoked "https://github.com/o/r/tree/b@d" = false)) :=
  ⟨⟨rfl, ref_validation.1 "https://github.com/owner/repo/tree/feature/x"
      "https://github.com/owner/repo" "repo" "feature/x" rfl⟩,
    ⟨rfl, by decide,
      ref_validation.2 "https://github.com/o/r/tree/b@d"
        "o".data "r".data "b@d".data [] rfl (by decide)⟩⟩

/-! ### Claim C10 -/

/-- C10 counterexample: for the accepted URL
`https://github.com/owner/.git` the parse succeeds with
`repo_url = "https://github.com/owner/"` and `name = ""`, but re-parsing
that returned `repo_url` fails (its path has fewer than two segments);
and for the accepted URL `https://github.com/owner/re;po/tree/x` the
parse succeeds with name `"re;po"` — nonempty and not ending in `.git` —
yet re-parsing the returned `repo_url` yields name `"re"` (the `;` now
sits in the final path segment, so `urlparse` splits it off as
parameters). So the round trip does not always reproduce the name. -/
theorem parse_roundtrip_counterexample :
    (parse_github_url "https://github.com/owner/.git" =
      .ok ("https://github.com/owner/", none, "") ∧
    parse_github_url "https://github.com/owner/" = .error PErr.pathTooShort) ∧
    (parse_github_url "https://github.com/owner/re;po/tree/x" =
      .ok ("https://github.com/owner/re;po", some "x", "re;po") ∧
    parse_github_url "https://github.com/owner/re;po" =
      .ok ("https://github.com/owner/re", none, "re")) :=
  ⟨⟨rfl, rfl⟩, ⟨rfl, rfl⟩⟩

/-- C10 (amended): for every URL accepted by `parse_github_url` returning
`(repo_url, ref, name)` whose derived name is nonempty, does not itself
end in `.git` and contains no `;`, re-parsing the returned `repo_url`
succeeds and yields exactly `(repo_url, none, name)`. (The unrestricted
claim fails when the repository segment is `".git"` — empty name — or
ends in `".git.git"`, where stripping repeats, or contains a `;`, which
the re-parse splits off as URL parameters.) -/
theorem parse_github_url_roundtrip (url ru nm : String) (br : Option String)
    (h : parse_github_url url = .ok (ru, br, nm))
    (hne : nm.data ≠ []) (hgit : endsWithGit nm.data = false)
    (hsemi : ';' ∉ nm.data) :
    parse_github_url ru = .ok (ru, none, nm) := by
  unfold parse_github_url at h
  cases hc : parse_github_urlC url.data with
  | error e =>
    rw [hc] at h
    exact Except.noConfusion h
  | ok v =>
    obtain ⟨ruC, brC, nmC⟩ := v
    rw [hc] at h
    simp only [Except.ok.injEq, Prod.mk.injEq] at h
    obtain ⟨h1, -, h3⟩ := h
    subst h1
    subst h3
    have hcr : parse_github_urlC ruC = .ok (ruC, none, nmC) :=
      parse_github_urlC_roundtrip hc hne hgit hsemi
    unfold parse_github_url
    have hdata : (String.mk ruC).data = ruC := rfl
    rw [hdata, hcr]
    rfl

/-- Witness for C10 (amended): the `tree` URL round-trips through its
canonical repository URL. -/
theorem parse_github_url_roundtrip_witness :
    (parse_github_url "https://github.com/owner/repo/tree/feature/x" =
        .ok ("https://github.com/owner/repo", some "feature/x", "repo") ∧
      ("repo" : String).data ≠ [] ∧ endsWithGit ("repo" : String).data = false ∧
      ';' ∉ ("repo" : String).data) ∧
    parse_github_url "https://github.com/owner/repo" =
      .ok ("https://github.com/owner/repo", none, "repo") :=
  ⟨⟨rfl, by decide, by decide, by decide⟩,
    parse_github_url_roundtrip "https://github.com/owner/repo/tree/feature/x"
      "https://github.com/owner/repo" "repo" (some "feature/x") rfl
      (by decide) (by decide) (by decide)⟩

end ModuleStaticAnalysis
